import Mathlib

/-!
# Verification of the GeometryCharacterization structure extractor

A shallow embedding of `extractStructuresSerial.py` (threshold filter, grid
padding, 26-connectivity flood-fill labeler with the marching-cubes ambiguity
resolver, and the percolation statistics) and of `box_count_func.py` (the
box-counting pyramid reduction), together with theorems settling the claims
about them.

Python/NumPy indexing conventions relevant here:
* `arr[i]` with `0 ≤ i < n` reads position `i`;
* `arr[i]` with `-n ≤ i < 0` wraps around and reads position `i + n`;
* any other index raises `IndexError` (the source catches it around every
  neighbor probe, so such a probe is a skip).
-/

namespace GeomChar

/-- Index triple into a 3-D array (all coordinates in range). -/
abbrev Idx3 := Nat × Nat × Nat

/-- A raw (possibly negative) Python index triple. -/
abbrev Pos3 := Int × Int × Int

/-- Componentwise addition of a raw index triple and an offset. -/
def add3 (p q : Pos3) : Pos3 := (p.1 + q.1, p.2.1 + q.2.1, p.2.2 + q.2.2)

/-- Embedding of the index semantics of a NumPy axis of length `n`:
`some m` means position `m` is read, `none` means `IndexError` is raised
(and the surrounding `try`/`except` in the source skips the probe). -/
def pyIdx (n : Nat) (i : Int) : Option Nat :=
  if 0 ≤ i ∧ i < (n : Int) then some i.toNat
  else if -(n : Int) ≤ i ∧ i < 0 then some (i + n).toNat
  else none

/-- Resolve a raw index triple against array dimensions `dims`, NumPy style:
`some q` means cell `q` is the one actually read/written. -/
def resolve3 (dims : Idx3) (p : Pos3) : Option Idx3 :=
  match pyIdx dims.1 p.1, pyIdx dims.2.1 p.2.1, pyIdx dims.2.2 p.2.2 with
  | some a, some b, some c => some (a, b, c)
  | _, _, _ => none

/-- Occupancy grid: the boolean array `c` after thresholding and padding. -/
abbrev OccGrid := Idx3 → Bool

/-- Label grid: the `_structValuedGrid` array of the source. -/
abbrev LabGrid := Idx3 → Nat

/-- Neighbor-flag assignment: which of the 26 offsets were newly linked in the
current expansion step.  This combines the `_f`/`_e`/`_c` booleans with the
`_auxCube` contents (both are set together in every branch of the source). -/
abbrev FlagSet := Pos3 → Bool

/-- The 26 neighbor offsets in the exact order the source probes them and
later converts `_auxCube` entries into `_neighborVal` appends:
faces `_f1`..`_f6`, edges `_e1`..`_e12`, corners `_c1`..`_c8`. -/
def offsets : List Pos3 :=
  [(1,0,0), (-1,0,0), (0,1,0), (0,-1,0), (0,0,1), (0,0,-1),
   (1,1,0), (1,-1,0), (-1,1,0), (-1,-1,0),
   (1,0,1), (-1,0,1), (0,1,1), (0,-1,1),
   (1,0,-1), (-1,0,-1), (0,1,-1), (0,-1,-1),
   (1,1,1), (1,-1,1), (-1,1,1), (-1,-1,1),
   (1,1,-1), (1,-1,-1), (-1,1,-1), (-1,-1,-1)]

/-- The six face offsets (`_f1` .. `_f6`). -/
def faceOffsets : List Pos3 :=
  [(1,0,0), (-1,0,0), (0,1,0), (0,-1,0), (0,0,1), (0,0,-1)]

/-- One neighbor probe of the expansion step (one `try`/`except` block of the
source): resolve the raw index; on `IndexError` do nothing; otherwise, if the
cell is occupied and unlabeled, label it with the current structure id and
record the corresponding flag / `_auxCube` entry. -/
def linkOne (occ : OccGrid) (dims : Idx3) (v : Nat) (pz : Pos3)
    (st : LabGrid × FlagSet) (d : Pos3) : LabGrid × FlagSet :=
  match resolve3 dims (add3 pz d) with
  | none => st
  | some q =>
      if occ q ∧ st.1 q = 0 then
        (Function.update st.1 q v, Function.update st.2 d true)
      else st

/-- All 26 neighbor probes of an expansion step, in source order. -/
def linkPhase (occ : OccGrid) (dims : Idx3) (v : Nat) (pz : Pos3)
    (lab : LabGrid) : LabGrid × FlagSet :=
  offsets.foldl (linkOne occ dims v pz) (lab, fun _ => false)

/-! ## Marching-cubes ambiguity resolver

The source freezes the flag booleans `_f1..; _e1..; _c1..` after the probe
phase, builds eight octant cube lists `_cube1 .. _cube8` from them, computes a
case code for each via `find_case_number`, consults the outlier table
`outliers` (the `MCOutliers` module, which is not part of this repository's
two source files), and for each returned corner subset that misses the
octant's own anchor corner resets the listed cells in `_structValuedGrid`
and `_auxCube`. -/

/-- The outlier case table of the `MCOutliers` module: case code to the list
of corner-index subsets. The module is external to the two source files, so
it is kept abstract; the properties assumed of it are stated per theorem. -/
abbrev OutlierTable := Nat → List (List Nat)

/-- Octant cube lists `_cube1` .. `_cube8`, exactly as assembled by the
source from the frozen flags (the literal `True` occupies the corner that
coincides with the cell being expanded). `ii = 0` is `_cube1`, etc. -/
def cubeList (fl : FlagSet) : Nat → List Bool
  | 0 => [fl (0,0,-1), fl (1,0,-1), fl (1,-1,-1), fl (0,-1,-1),
          true, fl (1,0,0), fl (1,-1,0), fl (0,-1,0)]
  | 1 => [fl (-1,0,-1), fl (0,0,-1), fl (0,-1,-1), fl (-1,-1,-1),
          fl (-1,0,0), true, fl (0,-1,0), fl (-1,-1,0)]
  | 2 => [fl (-1,1,-1), fl (0,1,-1), fl (0,0,-1), fl (-1,0,-1),
          fl (-1,1,0), fl (0,1,0), true, fl (-1,0,0)]
  | 3 => [fl (0,1,-1), fl (1,1,-1), fl (1,0,-1), fl (0,0,-1),
          fl (0,1,0), fl (1,1,0), fl (1,0,0), true]
  | 4 => [true, fl (1,0,0), fl (1,-1,0), fl (0,-1,0),
          fl (0,0,1), fl (1,0,1), fl (1,-1,1), fl (0,-1,1)]
  | 5 => [fl (-1,0,0), true, fl (0,-1,0), fl (-1,-1,0),
          fl (-1,0,1), fl (0,0,1), fl (0,-1,1), fl (-1,-1,1)]
  | 6 => [fl (-1,1,0), fl (0,1,0), true, fl (-1,0,0),
          fl (-1,1,1), fl (0,1,1), fl (0,0,1), fl (-1,0,1)]
  | 7 => [fl (0,1,0), fl (1,1,0), fl (1,0,0), true,
          fl (0,1,1), fl (1,1,1), fl (1,0,1), fl (0,0,1)]
  | _ => []

/-- `find_case_number` of the source: `sum(2**v for v in range(8)
if _cube[v] == True)`. -/
def find_case_number (cube : List Bool) : Nat :=
  (List.range 8).foldl (fun acc v => acc + if cube.getD v false then 2 ^ v else 0) 0

/-- The corner index of each octant cube that coincides with the cell being
expanded (the constant checked by `if .. not in _caseVal[jj]` per `ii`). -/
def anchorIdx : Nat → Nat
  | 0 => 4 | 1 => 5 | 2 => 6 | 3 => 7
  | 4 => 0 | 5 => 1 | 6 => 2 | 7 => 3
  | _ => 8

/-- The neighbor offset written by the removal branch for octant `ii`,
corner value `_removeVal[kk] = w` — the 56 `if _removeVal[kk] == ..` bodies
of the source, translated branch by branch (e.g. `ii = 0`, `w = 0` writes
`_structValuedGrid[i, j, k-1]`, which is offset `(0,0,-1)`). The anchor
corner of each octant has no branch. -/
def removeCell : Nat → Nat → Option Pos3
  | 0, 0 => some (0,0,-1) | 0, 1 => some (1,0,-1)
  | 0, 2 => some (1,-1,-1) | 0, 3 => some (0,-1,-1)
  | 0, 5 => some (1,0,0) | 0, 6 => some (1,-1,0) | 0, 7 => some (0,-1,0)
  | 1, 0 => some (-1,0,-1) | 1, 1 => some (0,0,-1)
  | 1, 2 => some (0,-1,-1) | 1, 3 => some (-1,-1,-1)
  | 1, 4 => some (-1,0,0) | 1, 6 => some (0,-1,0) | 1, 7 => some (-1,-1,0)
  | 2, 0 => some (-1,1,-1) | 2, 1 => some (0,1,-1)
  | 2, 2 => some (0,0,-1) | 2, 3 => some (-1,0,-1)
  | 2, 4 => some (-1,1,0) | 2, 5 => some (0,1,0) | 2, 7 => some (-1,0,0)
  | 3, 0 => some (0,1,-1) | 3, 1 => some (1,1,-1)
  | 3, 2 => some (1,0,-1) | 3, 3 => some (0,0,-1)
  | 3, 4 => some (0,1,0) | 3, 5 => some (1,1,0) | 3, 6 => some (1,0,0)
  | 4, 1 => some (1,0,0) | 4, 2 => some (1,-1,0) | 4, 3 => some (0,-1,0)
  | 4, 4 => some (0,0,1) | 4, 5 => some (1,0,1)
  | 4, 6 => some (1,-1,1) | 4, 7 => some (0,-1,1)
  | 5, 0 => some (-1,0,0) | 5, 2 => some (0,-1,0) | 5, 3 => some (-1,-1,0)
  | 5, 4 => some (-1,0,1) | 5, 5 => some (0,0,1)
  | 5, 6 => some (0,-1,1) | 5, 7 => some (-1,-1,1)
  | 6, 0 => some (-1,1,0) | 6, 1 => some (0,1,0) | 6, 3 => some (-1,0,0)
  | 6, 4 => some (-1,1,1) | 6, 5 => some (0,1,1)
  | 6, 6 => some (0,0,1) | 6, 7 => some (-1,0,1)
  | 7, 0 => some (0,1,0) | 7, 1 => some (1,1,0) | 7, 2 => some (1,0,0)
  | 7, 4 => some (0,1,1) | 7, 5 => some (1,1,1)
  | 7, 6 => some (1,0,1) | 7, 7 => some (0,0,1)
  | _, _ => none

/-- Apply the removals of one selected subset `S` for octant `ii`: each
listed corner value resets the corresponding neighbor cell in the label grid
(writes `0`, with NumPy index resolution) and clears its `_auxCube` entry. -/
def applyRemovals (dims : Idx3) (pz : Pos3) (ii : Nat) (S : List Nat)
    (st : LabGrid × FlagSet) : LabGrid × FlagSet :=
  S.foldl (fun st w =>
    match removeCell ii w with
    | none => st
    | some d =>
        (match resolve3 dims (add3 pz d) with
         | some q => Function.update st.1 q 0
         | none => st.1,
         Function.update st.2 d false)) st

/-- Process one octant `ii`: look up the case code in the outlier table and,
for every returned subset that does not contain the octant's anchor corner,
apply its removals (the `for jj` loop of the source). -/
def applyOctant (table : OutlierTable) (fl : FlagSet) (dims : Idx3) (pz : Pos3)
    (st : LabGrid × FlagSet) (ii : Nat) : LabGrid × FlagSet :=
  let code := find_case_number (cubeList fl ii)
  (table code).foldl
    (fun st S => if anchorIdx ii ∈ S then st else applyRemovals dims pz ii S st) st

/-- The full marching-cubes correction pass of one expansion step
(`for ii in range(8)`), on the frozen flags `fl`. -/
def mcResolve (table : OutlierTable) (fl : FlagSet) (dims : Idx3) (pz : Pos3)
    (st : LabGrid × FlagSet) : LabGrid × FlagSet :=
  (List.range 8).foldl (applyOctant table fl dims pz) st

/-- Convert the surviving `_auxCube` entries into `_neighborVal` appends, in
source order (the appended coordinates are the raw Python indices `i±1` …). -/
def appendsOf (pz : Pos3) (fl : FlagSet) : List Pos3 :=
  (offsets.filter fun d => fl d).map (add3 pz)

/-- One iteration of the `while True` expansion loop body for center `pz`:
probe the 26 neighbors, optionally run the ambiguity resolver, and emit the
frontier appends. -/
def runStep (occ : OccGrid) (dims : Idx3) (table : OutlierTable) (mc : Bool)
    (v : Nat) (lab : LabGrid) (pz : Pos3) : LabGrid × List Pos3 :=
  let st := linkPhase occ dims v pz lab
  let st' := if mc then mcResolve table st.2 dims pz st else st
  (st'.1, appendsOf pz st'.2)

/-! ## Expansion loop and outer scan

The source's `while True` loop processes the seed cell first
(`_loopCounter == 0`), then reads `_neighborVal[_neighborCounter]` entries in
order, appending new entries at the end, and breaks on `IndexError` when the
counter runs past the list.  That is a FIFO queue seeded with the start cell;
we model it with an explicit pending list and a fuel parameter (the source
terminates by exhausting the queue; `none` models running out of fuel). -/

/-- Breadth-first expansion: repeatedly pop the next pending center, run one
expansion step, and enqueue its appends. -/
def expandFrom (occ : OccGrid) (dims : Idx3) (table : OutlierTable) (mc : Bool)
    (v : Nat) : Nat → LabGrid → List Pos3 → Option LabGrid
  | 0, _, _ => none
  | _ + 1, lab, [] => some lab
  | fuel + 1, lab, pz :: rest =>
      let r := runStep occ dims table mc v lab pz
      expandFrom occ dims table mc v fuel r.1 (rest ++ r.2)

/-- The scan order of the outer triple loop
`for i in range(xlen+1): for j ..: for k ..`. -/
def scanList (dims : Idx3) : List Idx3 :=
  (List.range dims.1).flatMap fun i =>
    (List.range dims.2.1).flatMap fun j =>
      (List.range dims.2.2).map fun k => (i, j, k)

/-- The outer scan: at each unlabeled occupied cell allocate the next
structure id, seed it, and run the expansion to exhaustion.  Also records the
seed cells in first-encounter order. -/
def outerLoop (occ : OccGrid) (dims : Idx3) (table : OutlierTable) (mc : Bool)
    (fuel : Nat) : List Idx3 → LabGrid × Nat × List Idx3 →
    Option (LabGrid × Nat × List Idx3)
  | [], st => some st
  | p :: rest, (lab, v, seeds) =>
      if occ p ∧ lab p = 0 then
        match expandFrom occ dims table mc (v + 1) fuel
            (Function.update lab p (v + 1)) [((p.1 : Int), (p.2.1 : Int), (p.2.2 : Int))] with
        | none => none
        | some lab' => outerLoop occ dims table mc fuel rest (lab', v + 1, seeds ++ [p])
      else outerLoop occ dims table mc fuel rest (lab, v, seeds)

/-- The whole labeling pass on a padded occupancy grid: returns the final
label grid, the number of structures (`_structVal`), and the seeds in
first-encounter order. -/
def labelRun (occ : OccGrid) (dims : Idx3) (table : OutlierTable) (mc : Bool)
    (fuel : Nat) : Option (LabGrid × Nat × List Idx3) :=
  outerLoop occ dims table mc fuel (scanList dims) (fun _ => 0, 0, [])

/-! ## Statistics (`np.unique` + `countsall[::-1]`) -/

/-- The ravel of the cropped grid `_structValuedGrid[:xlen, :ylen, :zlen]`:
the list of cropped cell positions in C order. -/
def croppedRavel (x y z : Nat) : List Idx3 := scanList (x, y, z)

/-- Number of cropped cells carrying label value `l`
(one entry of the `counts` array of `np.unique(..., return_counts=True)`). -/
def countOf (x y z : Nat) (lab : LabGrid) (l : Nat) : Nat :=
  ((croppedRavel x y z).filter fun p => lab p = l).length

/-- The distinct label values of the cropped grid in ascending order
(the `u` array of `np.unique`). -/
def uniqueLabels (x y z : Nat) (lab : LabGrid) : List Nat :=
  (((croppedRavel x y z).map lab).dedup).insertionSort (· ≤ ·)

/-- The statistics block of the source: sort the per-label counts ascending
(`countsall.sort()`), reverse, take `Vmax = countsall[::-1][1]` and
`Vall = sum(countsall[::-1][1:])`.  When fewer than two distinct labels
exist, `countsall[::-1][1]` raises `IndexError`: result `none`. -/
def statsOf (x y z : Nat) (lab : LabGrid) : Option (Nat × Nat) :=
  match (((uniqueLabels x y z lab).map (countOf x y z lab)).insertionSort
      (· ≤ ·)).reverse with
  | _ :: vmax :: rest => some (vmax, vmax + rest.sum)
  | _ => none

/-- The labeling pass followed by the statistics block. -/
def runStats (occ : OccGrid) (x y z : Nat) (table : OutlierTable) (mc : Bool)
    (fuel : Nat) : Option (Nat × Nat) :=
  (labelRun occ (x + 1, y + 1, z + 1) table mc fuel).bind fun r =>
    statsOf x y z r.1

/-! ## Threshold filter and the per-threshold driver loop

Scalar values are rationals extended with a NaN element; every comparison
involving NaN is false, which is the only floating-point behavior the
driver's `if _threshVal > 0: c = (c > _threshVal) else: c = (c < _threshVal)`
depends on. -/

/-- A scalar value: a rational or NaN. -/
inductive PyFloat where
  | nan : PyFloat
  | val : ℚ → PyFloat
deriving DecidableEq

/-- IEEE-style strict greater-than: false whenever either side is NaN. -/
def pyGt : PyFloat → PyFloat → Bool
  | .val a, .val b => a > b
  | _, _ => false

/-- IEEE-style strict less-than: false whenever either side is NaN. -/
def pyLt : PyFloat → PyFloat → Bool
  | .val a, .val b => a < b
  | _, _ => false

/-- The flat index of cell `(i,j,k)` of a `(x,y,z)` array: C order (row
major, `_zFastest = True`) or Fortran order (`order = 'F'`). -/
def flatIdx (zFastest : Bool) (x y z i j k : Nat) : Nat :=
  if zFastest then i * (y * z) + j * z + k else i + j * x + k * (x * y)

/-- The occupancy value of cell `(i,j,k)` for threshold `t`: the reshaped
scalar field compared against `t`, upper tail for `t > 0`, lower tail
otherwise. -/
def passOcc (data : List PyFloat) (x y z : Nat) (zFastest : Bool)
    (t : PyFloat) (p : Idx3) : Bool :=
  let value := data.getD (flatIdx zFastest x y z p.1 p.2.1 p.2.2) (.val 0)
  if pyGt t (.val 0) then pyGt value t else pyLt value t

/-- The padded grid `mz`: shape `(x+1, y+1, z+1)`, the thresholded field in
the leading block, `False` in the added layer. -/
def passPaddedOcc (data : List PyFloat) (x y z : Nat) (zFastest : Bool)
    (t : PyFloat) (p : Idx3) : Bool :=
  if p.1 < x ∧ p.2.1 < y ∧ p.2.2 < z then passOcc data x y z zFastest t p
  else false

/-- Flatten the padded boolean grid in C order to the list of values the
variable `c` holds after a pass (numpy booleans compare as `1`/`0`). -/
def flattenPadC (x y z : Nat) (g : OccGrid) : List PyFloat :=
  (scanList (x + 1, y + 1, z + 1)).map fun p => .val (if g p then 1 else 0)

/-- Failure modes of a driver run. -/
inductive RunErr where
  /-- `np.reshape` on an array whose size does not match `(x, y, z)`. -/
  | valueErr : RunErr
  /-- `countsall[::-1][1]` on fewer than two distinct labels. -/
  | indexErr : RunErr
  /-- fuel exhaustion of the embedded expansion loop (does not correspond to
  a source behavior; the fuel passed by `extractStructures` is sufficient). -/
  | fuelErr : RunErr
deriving DecidableEq

/-- One percolation record `(threshold, Vmax, Vall)`. -/
abbrev PercRecord := PyFloat × Nat × Nat

instance exceptDecEq {ε α : Type} [DecidableEq ε] [DecidableEq α] :
    DecidableEq (Except ε α)
  | .error a, .error b =>
      if h : a = b then isTrue (by rw [h])
      else isFalse fun hh => h (Except.error.inj hh)
  | .error _, .ok _ => isFalse fun hh => Except.noConfusion hh
  | .ok _, .error _ => isFalse fun hh => Except.noConfusion hh
  | .ok a, .ok b =>
      if h : a = b then isTrue (by rw [h])
      else isFalse fun hh => h (Except.ok.inj hh)

/-- The driver loop of `extractStructures`: for each threshold, reshape the
*current* contents of the loop variable `c` (which after the first pass no
longer holds the scalar field but the padded boolean grid of the previous
pass — the source rebinds `c` at every stage), threshold, pad, label, and run
the statistics.  Percolation records are collected when
`_writePercolationData` is set. -/
def driverLoop (x y z : Nat) (zFastest : Bool) (table : OutlierTable)
    (mc : Bool) (writePerc : Bool) :
    List PyFloat → List PyFloat → List PercRecord → Except RunErr (List PercRecord)
  | [], _, recs => .ok recs
  | t :: rest, c, recs =>
      if c.length ≠ x * y * z then .error .valueErr
      else
        let occ := passPaddedOcc c x y z zFastest t
        match labelRun occ (x + 1, y + 1, z + 1) table mc
            ((x + 1) * (y + 1) * (z + 1) + 2) with
        | none => .error .fuelErr
        | some r =>
            match statsOf x y z r.1 with
            | none => .error .indexErr
            | some (vmax, vall) =>
                driverLoop x y z zFastest table mc writePerc rest
                  (flattenPadC x y z occ)
                  (recs ++ if writePerc then [(t, vmax, vall)] else [])

/-- `extractStructures(_threshValList, c, xlen, ylen, zlen, _zFastest, ...)`:
process the threshold list against the initial array contents `data`. -/
def extractStructures (threshValList : List PyFloat) (data : List PyFloat)
    (xlen ylen zlen : Nat) (zFastest : Bool) (table : OutlierTable)
    (mc : Bool) (writePerc : Bool) : Except RunErr (List PercRecord) :=
  driverLoop xlen ylen zlen zFastest table mc writePerc threshValList data []

/-! ## Box counting (`box_count_func.py`) -/

/-- 3-D boolean grid for the box counter. -/
abbrev BoxGrid := Idx3 → Bool

/-- `getSum` of `computeFast`: count the true cells of the
`(xlen, ylen, zlen)` block by triple loop. -/
def getSum (xlen ylen zlen : Nat) (a : BoxGrid) : Nat :=
  ((scanList (xlen, ylen, zlen)).filter fun p => a p).length

/-- The stride positions `range(0, int(width-siz)+1, int(siz))`. -/
def stridePositions (width siz : Nat) : List Nat :=
  (List.range (width - siz + siz) ).filterMap fun m =>
    if m % siz = 0 ∧ m + siz ≤ width then some m else none

/-- One cell update of the pyramid pass: OR of the eight sub-box corners is
written back into `c[i,j,k]` in place, and the written value is added to the
running `c_sum`. -/
def boxStep (siz2 : Nat) (st : BoxGrid × Nat) (p : Idx3) : BoxGrid × Nat :=
  let (i, j, k) := p
  let c := st.1
  let orv := c (i,j,k) || c (i+siz2,j,k) || c (i,j+siz2,k) || c (i+siz2,j+siz2,k)
    || c (i,j,k+siz2) || c (i+siz2,j,k+siz2) || c (i,j+siz2,k+siz2)
    || c (i+siz2,j+siz2,k+siz2)
  (Function.update c (i,j,k) orv, st.2 + if orv then 1 else 0)

/-- One resolution `g` of the pyramid loop: every box of side `siz = 2^(p-g)`
is OR-reduced into its lowest corner, and `n[-g-1]` (i.e. `n[p-g]`) is set to
the number of nonempty boxes. -/
def boxPass (p width : Nat) (st : BoxGrid × List Nat) (g : Nat) : BoxGrid × List Nat :=
  let siz := 2 ^ (p - g)
  let siz2 := siz / 2
  let cells := (stridePositions width siz).flatMap fun i =>
    (stridePositions width siz).flatMap fun j =>
      (stridePositions width siz).map fun k => (i, j, k)
  let r := cells.foldl (boxStep siz2) (st.1, 0)
  (r.1, st.2.set (p - g) r.2)

/-- `computeFast`: fill `n[0]` with the exact cell count, then run the
pyramid passes over `reverse_range`, mutating `c` in place.  Returns the
final `n` array *and* the final contents of `c` (the caller's array after
the in-place mutation). -/
def computeFast (xlen ylen zlen : Nat) (c : BoxGrid) (p width : Nat)
    (reverse_range : List Nat) (n : List Nat) : List Nat × BoxGrid :=
  let n0 := n.set 0 (getSum xlen ylen zlen c)
  let r := reverse_range.foldl (boxPass p width) (c, n0)
  (r.2, r.1)

/-- `boxCountFunc`: build `reverse_range`, `n` and `r`, call `computeFast`.
Returns `(n, r, c_after)` where `c_after` is the caller-visible content of
the argument array after the call (the jit kernel mutates it in place). -/
def boxCountFunc (c : BoxGrid) (xlen ylen zlen p width : Nat) :
    List Nat × List Nat × BoxGrid :=
  let reverse_range := (List.range p).reverse
  let n : List Nat := List.replicate (p + 1) 0
  let r := (List.range (p + 1)).map (2 ^ ·)
  let res := computeFast xlen ylen zlen c p width reverse_range n
  (res.1, r, res.2)

/-! ## Basic facts about the index semantics -/

/-- Inject an in-range cell into raw Python index space. -/
def ofIdx (p : Idx3) : Pos3 := ((p.1 : Int), (p.2.1 : Int), (p.2.2 : Int))

/-- Cell `p` lies in the cropped (unpadded) region of an `(x, y, z)` grid. -/
def InCrop (x y z : Nat) (p : Idx3) : Prop :=
  p.1 < x ∧ p.2.1 < y ∧ p.2.2 < z

instance (x y z : Nat) (p : Idx3) : Decidable (InCrop x y z p) := by
  unfold InCrop; infer_instance

/-- A padded occupancy grid: everything outside the cropped region is false
(the `mz` layer added by the source, plus everything beyond it). -/
def PaddedGrid (occ : OccGrid) (x y z : Nat) : Prop :=
  ∀ p, ¬ InCrop x y z p → occ p = false

theorem pyIdx_none_of_ge {n : Nat} {i : Int} (h : (n : Int) ≤ i) :
    pyIdx n i = none := by
  unfold pyIdx
  rw [if_neg, if_neg]
  · rintro ⟨-, h2⟩
    omega
  · rintro ⟨-, h2⟩
    omega

theorem pyIdx_coe {n m : Nat} (h : m < n) : pyIdx n (m : Int) = some m := by
  unfold pyIdx
  rw [if_pos ⟨Int.natCast_nonneg m, by exact_mod_cast h⟩, Int.toNat_natCast]

theorem pyIdx_neg_one {n : Nat} : pyIdx (n + 1) (-1) = some n := by
  unfold pyIdx
  rw [if_neg (by omega), if_pos ⟨by omega, by omega⟩]
  congr 1
  omega

theorem pyIdx_lt_of_some {n : Nat} {i : Int} {m : Nat} (h : pyIdx n i = some m) :
    m < n := by
  unfold pyIdx at h
  split at h
  · rename_i hc
    cases h
    omega
  · split at h
    · rename_i hc
      cases h
      omega
    · cases h

theorem pyIdx_nowrap {n : Nat} {i : Int} {m : Nat} (h : pyIdx n i = some m)
    (hge : -1 ≤ i) (hm : m + 1 < n) : i = (m : Int) := by
  unfold pyIdx at h
  split at h
  · rename_i hc
    cases h
    omega
  · split at h
    · rename_i hc
      cases h
      omega
    · cases h

theorem resolve3_components {dims : Idx3} {zp : Pos3} {q : Idx3}
    (h : resolve3 dims zp = some q) :
    pyIdx dims.1 zp.1 = some q.1 ∧ pyIdx dims.2.1 zp.2.1 = some q.2.1 ∧
      pyIdx dims.2.2 zp.2.2 = some q.2.2 := by
  unfold resolve3 at h
  rcases h1 : pyIdx dims.1 zp.1 with _ | a <;> rw [h1] at h
  · cases h
  rcases h2 : pyIdx dims.2.1 zp.2.1 with _ | b <;> rw [h2] at h
  · cases h
  rcases h3 : pyIdx dims.2.2 zp.2.2 with _ | c <;> rw [h3] at h
  · cases h
  cases h
  exact ⟨rfl, rfl, rfl⟩

theorem resolve3_mk {dims : Idx3} {zp : Pos3} {a b c : Nat}
    (h1 : pyIdx dims.1 zp.1 = some a) (h2 : pyIdx dims.2.1 zp.2.1 = some b)
    (h3 : pyIdx dims.2.2 zp.2.2 = some c) : resolve3 dims zp = some (a, b, c) := by
  unfold resolve3
  rw [h1, h2, h3]

theorem resolve3_ofIdx {dims : Idx3} {p : Idx3} (h1 : p.1 < dims.1)
    (h2 : p.2.1 < dims.2.1) (h3 : p.2.2 < dims.2.2) :
    resolve3 dims (ofIdx p) = some p :=
  resolve3_mk (pyIdx_coe h1) (pyIdx_coe h2) (pyIdx_coe h3)

/-- If a raw index with all components `≥ -1` resolves to a cell strictly
inside the last layer on every axis, no wrap occurred: the raw index is the
cell itself. -/
theorem resolve3_nowrap {x y z : Nat} {zp : Pos3} {q : Idx3}
    (h : resolve3 (x + 1, y + 1, z + 1) zp = some q)
    (hge : -1 ≤ zp.1 ∧ -1 ≤ zp.2.1 ∧ -1 ≤ zp.2.2)
    (hq : InCrop x y z q) : zp = ofIdx q := by
  obtain ⟨h1, h2, h3⟩ := resolve3_components h
  obtain ⟨g1, g2, g3⟩ := hq
  have h1' : pyIdx (x + 1) zp.1 = some q.1 := h1
  have h2' : pyIdx (y + 1) zp.2.1 = some q.2.1 := h2
  have h3' : pyIdx (z + 1) zp.2.2 = some q.2.2 := h3
  have e1 := pyIdx_nowrap h1' hge.1 (by omega)
  have e2 := pyIdx_nowrap h2' hge.2.1 (by omega)
  have e3 := pyIdx_nowrap h3' hge.2.2 (by omega)
  unfold ofIdx
  obtain ⟨a, b, c⟩ := zp
  simp only at e1 e2 e3 ⊢
  exact Prod.ext e1 (Prod.ext e2 e3)

/-- Every one of the 26 offsets has all components in `{-1, 0, 1}`. -/
theorem offsets_bounded : ∀ d ∈ offsets,
    (-1 ≤ d.1 ∧ d.1 ≤ 1) ∧ (-1 ≤ d.2.1 ∧ d.2.1 ≤ 1) ∧ (-1 ≤ d.2.2 ∧ d.2.2 ≤ 1) := by
  decide

/-- The offset list is closed under negation (26-adjacency is symmetric). -/
theorem offsets_neg : ∀ d ∈ offsets, (-d.1, -d.2.1, -d.2.2) ∈ offsets := by
  decide

theorem zero_not_mem_offsets : ((0 : Int), (0 : Int), (0 : Int)) ∉ offsets := by
  decide

/-! ## Spec-side definitions (for refinement-style comparisons) -/

/-- Modelled from the spec: "occupancy = (value > t) if t > 0, else
(value < t)". -/
def specOccupancyRule (value t : PyFloat) : Bool :=
  if pyGt t (.val 0) then pyGt value t else pyLt value t

/-- Modelled from the spec: "maximum non-background structure size = largest
count among labels > 0". -/
def specMaxVolume (x y z : Nat) (lab : LabGrid) : Nat :=
  (((uniqueLabels x y z lab).filter (0 < ·)).map (countOf x y z lab)).foldr max 0

/-- Modelled from the spec: "total occupied volume = sum of counts for all
labels > 0". -/
def specTotalVolume (x y z : Nat) (lab : LabGrid) : Nat :=
  (((uniqueLabels x y z lab).filter (0 < ·)).map (countOf x y z lab)).sum

/-! ## C9: the threshold rule -/

/-- C9: for every scalar field and threshold `t`, the padded occupancy grid
built by a pass holds `(value > t)` when `t > 0` and `(value < t)` otherwise
at every cropped cell (the value being the reshaped field entry under the
configured axis order), and `false` on the padding layer.  The computation
is a pure function of the field. -/
theorem c9_threshold_rule (data : List PyFloat) (x y z : Nat) (zF : Bool)
    (t : PyFloat) (p : Idx3) :
    passPaddedOcc data x y z zF t p =
      if InCrop x y z p then
        specOccupancyRule
          (data.getD (flatIdx zF x y z p.1 p.2.1 p.2.2) (.val 0)) t
      else false := by
  simp only [passPaddedOcc, passOcc, specOccupancyRule, InCrop]

/-! ## C10: the box-counting pyramid mutates its input in place -/

/-- The 2×2×2 grid with a single occupied cell at `(1,1,1)`. -/
def cBox : BoxGrid := fun p => decide (p = (1, 1, 1))

theorem foldl_boxPass_getD0 (p width : Nat) :
    ∀ (gs : List Nat) (st : BoxGrid × List Nat), (∀ g ∈ gs, g < p) →
      ((gs.foldl (boxPass p width) st).2.getD 0 0) = st.2.getD 0 0 := by
  intro gs
  induction gs with
  | nil => intro st _; rfl
  | cons g gs ih =>
      intro st hg
      rw [List.foldl_cons, ih _ (fun a ha => hg a (List.mem_cons_of_mem _ ha))]
      show (st.2.set (p - g) _).getD 0 0 = st.2.getD 0 0
      have hpg : p - g ≠ 0 := by
        have := hg g (List.mem_cons_self g gs)
        omega
      rw [List.getD_eq_getElem?_getD, List.getD_eq_getElem?_getD,
        List.getElem?_set_ne (by omega)]

/-- C10: `boxCountFunc` overwrites the caller's array in place — the first
conjunct shows `n[0]` is the true-cell count of the *original* grid (it is
computed before the reduction and no pyramid pass writes `n[0]`); the
remaining conjuncts exhibit a concrete grid whose cell `(0,0,0)` is false on
entry and true after the call, with `n = [1, 1]`. -/
theorem c10_boxcount_inplace :
    (∀ (xlen ylen zlen : Nat) (c : BoxGrid) (p width : Nat),
        (boxCountFunc c xlen ylen zlen p width).1.getD 0 0 =
          getSum xlen ylen zlen c) ∧
    cBox (0, 0, 0) = false ∧
    (boxCountFunc cBox 2 2 2 1 2).2.2 (0, 0, 0) = true ∧
    (boxCountFunc cBox 2 2 2 1 2).1 = [1, 1] := by
  refine ⟨?_, by decide, by decide, by decide⟩
  intro xlen ylen zlen c p width
  show ((((List.range p).reverse).foldl (boxPass p width)
      (c, (List.replicate (p + 1) 0).set 0 (getSum xlen ylen zlen c))).2.getD 0 0) = _
  rw [foldl_boxPass_getD0 p width _ _
    (fun g hg => List.mem_range.mp (List.mem_reverse.mp hg))]
  show ((List.replicate (p + 1) 0).set 0 (getSum xlen ylen zlen c)).getD 0 0 = _
  rw [List.getD_eq_getElem?_getD, List.getElem?_set_eq_of_lt _ (by simp)]
  rfl

/-! ## C6: the loop variable `c` is overwritten between threshold passes -/

/-- The 1×1×2 test field `[5, 0]`. -/
def data6 : List PyFloat := [.val 5, .val 0]

/-- The empty outlier table (resolver entries absent). -/
def tblE : OutlierTable := fun _ => []

/-- C6 (failing input): with two thresholds `[1, 2]` on the 1×1×2 field
`[5, 0]`, the first pass succeeds and produces the record `(1, 1, 1)`, but
the second pass fails with `ValueError`: the loop variable `c` now holds the
padded 2×2×3 boolean grid of the first pass (12 entries), which `np.reshape`
cannot reshape to `(1, 1, 2)`.  The second threshold is never evaluated
against the scalar field. -/
theorem c6_second_threshold_crashes :
    extractStructures [.val 1] data6 1 1 2 true tblE false true
        = .ok [(.val 1, 1, 1)] ∧
    extractStructures [.val 1, .val 2] data6 1 1 2 true tblE false true
        = .error .valueErr := by
  constructor <;> decide

/-! ## C7: NaN thresholds -/

theorem passPaddedOcc_nan (data : List PyFloat) (x y z : Nat) (zF : Bool)
    (p : Idx3) : passPaddedOcc data x y z zF .nan p = false := by
  unfold passPaddedOcc passOcc
  split
  · show (if pyGt PyFloat.nan (.val 0) then _ else pyLt _ PyFloat.nan) = false
    rw [if_neg (by simp [pyGt])]
    cases data.getD (flatIdx zF x y z p.1 p.2.1 p.2.2) (.val 0) <;> rfl
  · rfl

/-- A labeling pass over an everywhere-false occupancy grid never seeds a
structure: it completes immediately with the all-zero label grid. -/
theorem outerLoop_allFalse (occ : OccGrid) (dims : Idx3) (table : OutlierTable)
    (mc : Bool) (fuel : Nat) (hocc : ∀ p, occ p = false) :
    ∀ (ps : List Idx3) (st : LabGrid × Nat × List Idx3),
      outerLoop occ dims table mc fuel ps st = some st := by
  intro ps
  induction ps with
  | nil => intro st; rfl
  | cons p ps ih =>
      intro st
      obtain ⟨lab, v, seeds⟩ := st
      show (if occ p ∧ lab p = 0 then _ else _) = _
      rw [if_neg (by simp [hocc p]), ih]

theorem labelRun_allFalse (occ : OccGrid) (dims : Idx3) (table : OutlierTable)
    (mc : Bool) (fuel : Nat) (hocc : ∀ p, occ p = false) :
    labelRun occ dims table mc fuel = some (fun _ => 0, 0, []) :=
  outerLoop_allFalse occ dims table mc fuel hocc _ _

theorem dedup_map_const {α : Type} (c : Nat) :
    ∀ L : List α, L ≠ [] → (L.map fun _ => c).dedup = [c] := by
  intro L
  induction L with
  | nil => intro h; exact absurd rfl h
  | cons a L ih =>
      intro _
      rw [List.map_cons]
      rcases hL : L with _ | ⟨b, L2⟩
      · rfl
      · rw [← hL, List.dedup_cons_of_mem, ih (by rw [hL]; exact List.cons_ne_nil b L2)]
        rw [hL]
        exact List.mem_map_of_mem _ (List.mem_cons_self b L2)

/-- On the all-zero label grid `countsall` has at most one entry, so
`countsall[::-1][1]` raises `IndexError`. -/
theorem statsOf_zero (x y z : Nat) : statsOf x y z (fun _ => 0) = none := by
  unfold statsOf uniqueLabels
  rcases hL : croppedRavel x y z with _ | ⟨a, L⟩
  · rfl
  · rw [dedup_map_const _ _ (List.cons_ne_nil a L)]
    rfl

/-- C7 (amended): a NaN threshold entry is not skipped.  `NaN > 0` is false,
so the lower-tail branch `c < NaN` runs, which is false everywhere: the pass
proceeds on an all-empty occupancy grid, and its statistics block raises
`IndexError` (fewer than two distinct labels), aborting the whole run — the
remaining thresholds are never processed. -/
theorem c7_nan_not_skipped (data : List PyFloat) (x y z : Nat) (zF : Bool)
    (table : OutlierTable) (mc wp : Bool) (rest : List PyFloat)
    (hlen : data.length = x * y * z) :
    (∀ p, passPaddedOcc data x y z zF .nan p = false) ∧
    extractStructures (.nan :: rest) data x y z zF table mc wp
      = .error .indexErr := by
  refine ⟨passPaddedOcc_nan data x y z zF, ?_⟩
  show (if data.length ≠ x * y * z then _ else _) = _
  rw [if_neg (by simp [hlen])]
  show (match labelRun (passPaddedOcc data x y z zF .nan) _ _ _ _ with
    | none => Except.error RunErr.fuelErr
    | some r => _) = _
  rw [labelRun_allFalse _ _ _ _ _ (passPaddedOcc_nan data x y z zF)]
  show (match statsOf x y z (fun _ => 0) with
    | none => Except.error RunErr.indexErr
    | some (vmax, vall) =>
        driverLoop x y z zF table mc wp rest
          (flattenPadC x y z (passPaddedOcc data x y z zF .nan))
          ([] ++ if wp = true then [(PyFloat.nan, vmax, vall)] else [])) = _
  rw [statsOf_zero]

/-- C7 holds as claimed? No: on the list `[NaN, 1]` over the 1×1×1 field
`[5]`, the NaN entry is processed (not skipped), its empty statistics raise
`IndexError`, and the remaining threshold `1` is never reached. -/
theorem c7_counterexample :
    extractStructures [.nan, .val 1] [.val 5] 1 1 1 true tblE false true
      = .error .indexErr := by decide

/-- Closed instantiation of `c7_nan_not_skipped` at the 1×1×1 field `[5]`. -/
theorem c7_nan_not_skipped_witness :
    (∀ p, passPaddedOcc [PyFloat.val 5] 1 1 1 true .nan p = false) ∧
    extractStructures [.nan] [.val 5] 1 1 1 true tblE false true
      = .error .indexErr :=
  c7_nan_not_skipped [.val 5] 1 1 1 true tblE false true [] (by decide)

/-! ## C2: bounds handling of neighbor probes -/

theorem pyIdx_pad {len : Nat} {i : Int} (h1 : -1 ≤ i) (h2 : i ≤ (len : Int)) :
    pyIdx (len + 1) i = some (if i < 0 then len else i.toNat) := by
  by_cases hneg : i < 0
  · have : i = -1 := by omega
    subst this
    rw [if_pos hneg]
    exact pyIdx_neg_one
  · rw [if_neg hneg]
    have hc : ((i.toNat : Int)) = i := Int.toNat_of_nonneg (by omega)
    have := @pyIdx_coe (len + 1) i.toNat (by omega)
    rwa [hc] at this

theorem resolve3_none_of_high {dims : Idx3} {zp : Pos3}
    (h : (dims.1 : Int) ≤ zp.1 ∨ (dims.2.1 : Int) ≤ zp.2.1 ∨
      (dims.2.2 : Int) ≤ zp.2.2) : resolve3 dims zp = none := by
  unfold resolve3
  rcases h with h | h | h
  · rw [pyIdx_none_of_ge h]
  · rw [pyIdx_none_of_ge h]
    cases pyIdx dims.1 zp.1 <;> rfl
  · rw [pyIdx_none_of_ge h]
    cases pyIdx dims.1 zp.1 <;> cases pyIdx dims.2.1 zp.2.1 <;> rfl

/-- A probe whose resolved target is unoccupied leaves the step state
unchanged (also covers an unresolvable probe). -/
theorem linkOne_of_unocc {occ : OccGrid} {dims : Idx3} {v : Nat} {pz : Pos3}
    {st : LabGrid × FlagSet} {d : Pos3}
    (h : ∀ q, resolve3 dims (add3 pz d) = some q → occ q = false) :
    linkOne occ dims v pz st d = st := by
  unfold linkOne
  rcases hr : resolve3 dims (add3 pz d) with _ | q
  · rfl
  · have hq := h q hr
    dsimp only
    rw [if_neg]
    rintro ⟨hocc, -⟩
    rw [hq] at hocc
    exact Bool.false_ne_true hocc

/-- C2 does not hold as stated: an access below the lower boundary is *not*
skipped.  From center `(0,0,0)` the offset `(-1,0,0)` gives raw index
`(-1,0,0)`, which is outside the grid from below, yet NumPy resolves it to
the opposite cell `(1,0,0)` of a `(2,2,2)` grid; the probe then reads that
cell, and (on an artificial unpadded grid occupied there) even labels it. -/
theorem c2_counterexample :
    (add3 (ofIdx (0, 0, 0)) (-1, 0, 0)).1 < 0 ∧
    resolve3 (2, 2, 2) (add3 (ofIdx (0, 0, 0)) (-1, 0, 0)) = some (1, 0, 0) ∧
    (linkOne (fun p => decide (p = (1, 0, 0))) (2, 2, 2) 1 (ofIdx (0, 0, 0))
      (fun _ => 0, fun _ => false) (-1, 0, 0)).1 (1, 0, 0) = 1 := by
  refine ⟨by decide, by decide, by decide⟩

/-- C2 (amended): probes beyond the *upper* padded bound raise `IndexError`
and are skipped unread; probes that reach raw index `-1` on some axis are
read after wrapping to the far padding layer, which is unoccupied in every
grid produced by the pipeline, so the probe leaves the labeling state
unchanged — the net effect (but not the mechanism) of a skip. -/
theorem c2_bounds_amended :
    (∀ (dims : Idx3) (zp : Pos3),
        ((dims.1 : Int) ≤ zp.1 ∨ (dims.2.1 : Int) ≤ zp.2.1 ∨
          (dims.2.2 : Int) ≤ zp.2.2) →
        resolve3 dims zp = none) ∧
    (∀ (x y z : Nat) (p : Idx3) (d : Pos3), InCrop x y z p → d ∈ offsets →
        ((add3 (ofIdx p) d).1 < 0 ∨ (add3 (ofIdx p) d).2.1 < 0 ∨
          (add3 (ofIdx p) d).2.2 < 0) →
        ∃ q, resolve3 (x + 1, y + 1, z + 1) (add3 (ofIdx p) d) = some q ∧
          ¬ InCrop x y z q ∧
          ∀ (data : List PyFloat) (zF : Bool) (t : PyFloat) (v : Nat)
            (st : LabGrid × FlagSet),
            linkOne (passPaddedOcc data x y z zF t) (x + 1, y + 1, z + 1) v
              (ofIdx p) st d = st) := by
  refine ⟨fun dims zp h => resolve3_none_of_high h, ?_⟩
  intro x y z p d hp hd hneg
  obtain ⟨hd1, hd2, hd3⟩ := offsets_bounded d hd
  obtain ⟨hp1, hp2, hp3⟩ := hp
  set zp := add3 (ofIdx p) d with hzp
  have hz1 : -1 ≤ zp.1 ∧ zp.1 ≤ (x : Int) := by
    simp only [hzp, add3, ofIdx]
    omega
  have hz2 : -1 ≤ zp.2.1 ∧ zp.2.1 ≤ (y : Int) := by
    simp only [hzp, add3, ofIdx]
    omega
  have hz3 : -1 ≤ zp.2.2 ∧ zp.2.2 ≤ (z : Int) := by
    simp only [hzp, add3, ofIdx]
    omega
  have hres : resolve3 (x + 1, y + 1, z + 1) zp =
      some (if zp.1 < 0 then x else zp.1.toNat,
            if zp.2.1 < 0 then y else zp.2.1.toNat,
            if zp.2.2 < 0 then z else zp.2.2.toNat) :=
    resolve3_mk (pyIdx_pad hz1.1 hz1.2) (pyIdx_pad hz2.1 hz2.2)
      (pyIdx_pad hz3.1 hz3.2)
  have hout : ¬ InCrop x y z
      (if zp.1 < 0 then x else zp.1.toNat,
       if zp.2.1 < 0 then y else zp.2.1.toNat,
       if zp.2.2 < 0 then z else zp.2.2.toNat) := by
    rintro ⟨hq1, hq2, hq3⟩
    dsimp only at hq1 hq2 hq3
    rcases hneg with h | h | h
    · rw [if_pos h] at hq1; omega
    · rw [if_pos h] at hq2; omega
    · rw [if_pos h] at hq3; omega
  refine ⟨_, hres, hout, ?_⟩
  intro data zF t v st
  refine linkOne_of_unocc fun q hq => ?_
  rw [← hzp, hres] at hq
  cases hq
  unfold passPaddedOcc
  exact if_neg fun hc => hout hc

/-- Closed instantiation of `c2_bounds_amended`: upper out-of-bounds probe
`(2,0,0)` against a `(2,2,2)` grid is skipped; lower probe `(-1,0,0)` from
`(0,0,0)` of the padded 1×1×1 grid wraps into padding and changes nothing. -/
theorem c2_bounds_amended_witness :
    resolve3 (2, 2, 2) (2, 0, 0) = none ∧
    ∃ q, resolve3 (2, 2, 2) (add3 (ofIdx (0, 0, 0)) (-1, 0, 0)) = some q ∧
      ¬ InCrop 1 1 1 q ∧
      ∀ (data : List PyFloat) (zF : Bool) (t : PyFloat) (v : Nat)
        (st : LabGrid × FlagSet),
        linkOne (passPaddedOcc data 1 1 1 zF t) (2, 2, 2) v
          (ofIdx (0, 0, 0)) st (-1, 0, 0) = st :=
  ⟨c2_bounds_amended.1 (2, 2, 2) (2, 0, 0) (Or.inl (by decide)),
   c2_bounds_amended.2 1 1 1 (0, 0, 0) (-1, 0, 0) (by decide) (by decide)
     (Or.inl (by decide))⟩

/-! ## Properties of the probe fold (`linkPhase`) -/

section LinkLemmas

variable {occ : OccGrid} {dims : Idx3} {v : Nat} {pz : Pos3}

theorem linkOne_cases (st : LabGrid × FlagSet) (d : Pos3) :
    linkOne occ dims v pz st d = st ∨
    ∃ q, resolve3 dims (add3 pz d) = some q ∧ occ q = true ∧ st.1 q = 0 ∧
      linkOne occ dims v pz st d =
        (Function.update st.1 q v, Function.update st.2 d true) := by
  unfold linkOne
  rcases hr : resolve3 dims (add3 pz d) with _ | q2
  · exact Or.inl rfl
  · dsimp only
    split
    · rename_i hcond
      exact Or.inr ⟨q2, rfl, hcond.1, hcond.2, rfl⟩
    · exact Or.inl rfl

theorem linkOne_lab_stable {st : LabGrid × FlagSet} {d : Pos3} {q : Idx3}
    (h : st.1 q ≠ 0) : (linkOne occ dims v pz st d).1 q = st.1 q := by
  rcases @linkOne_cases occ dims v pz st d with
    he | ⟨q2, hr, hq2, hz, he⟩
  · rw [he]
  · rw [he]
    show Function.update st.1 q2 v q = st.1 q
    rcases eq_or_ne q2 q with rfl | hne
    · exact absurd hz h
    · exact Function.update_noteq (fun hh => hne hh.symm) _ _

theorem linkOne_flag_stable {st : LabGrid × FlagSet} {d e : Pos3}
    (h : st.2 e = true) : (linkOne occ dims v pz st d).2 e = true := by
  rcases @linkOne_cases occ dims v pz st d with
    he | ⟨q2, hr, hq2, hz, he⟩
  · rw [he]; exact h
  · rw [he]
    show Function.update st.2 d true e = true
    rcases eq_or_ne e d with rfl | hne
    · exact Function.update_same _ _ _
    · rw [Function.update_noteq hne]
      exact h

theorem linkOne_lab_new {st : LabGrid × FlagSet} {d : Pos3} {q : Idx3}
    (h : (linkOne occ dims v pz st d).1 q ≠ st.1 q) :
    (linkOne occ dims v pz st d).1 q = v ∧ st.1 q = 0 ∧ occ q = true ∧
      resolve3 dims (add3 pz d) = some q ∧
      (linkOne occ dims v pz st d).2 d = true := by
  rcases @linkOne_cases occ dims v pz st d with
    he | ⟨q2, hr, hq2, hz, he⟩
  · rw [he] at h
    exact absurd rfl h
  · rw [he] at h ⊢
    rcases eq_or_ne q q2 with rfl | hne
    · exact ⟨Function.update_same _ _ _, hz, hq2, hr, Function.update_same _ _ _⟩
    · exact absurd (Function.update_noteq hne _ _) h

theorem linkOne_flag_new {st : LabGrid × FlagSet} {d e : Pos3}
    (h : (linkOne occ dims v pz st d).2 e ≠ st.2 e) :
    e = d ∧ (linkOne occ dims v pz st d).2 e = true ∧
      ∃ q, resolve3 dims (add3 pz d) = some q ∧ occ q = true ∧ st.1 q = 0 ∧
        (linkOne occ dims v pz st d).1 q = v := by
  rcases @linkOne_cases occ dims v pz st d with
    he | ⟨q2, hr, hq2, hz, he⟩
  · rw [he] at h
    exact absurd rfl h
  · rw [he] at h ⊢
    rcases eq_or_ne e d with rfl | hne
    · exact ⟨rfl, Function.update_same _ _ _, q2, hr, hq2, hz,
        Function.update_same _ _ _⟩
    · exact absurd (Function.update_noteq hne _ _) h

theorem linkOne_complete {st : LabGrid × FlagSet} {d : Pos3} {q : Idx3}
    (hv : v ≠ 0) (hr : resolve3 dims (add3 pz d) = some q) (hq : occ q = true) :
    (linkOne occ dims v pz st d).1 q ≠ 0 := by
  rcases @linkOne_cases occ dims v pz st d with
    he | ⟨q2, hr2, hq2, hz, he⟩
  · rw [he]
    intro h0
    unfold linkOne at he
    rw [hr] at he
    dsimp only at he
    rw [if_pos ⟨hq, h0⟩] at he
    have := congrArg (fun s => s.1 q) he
    dsimp only at this
    rw [Function.update_same] at this
    exact hv (this.trans h0)
  · rw [he]
    show Function.update st.1 q2 v q ≠ 0
    rw [hr2] at hr
    cases hr
    rw [Function.update_same]
    exact hv

theorem linkFold_lab_stable :
    ∀ (L : List Pos3) (st : LabGrid × FlagSet) (q : Idx3), st.1 q ≠ 0 →
      (L.foldl (linkOne occ dims v pz) st).1 q = st.1 q := by
  intro L
  induction L with
  | nil => intro st q h; rfl
  | cons d L ih =>
      intro st q h
      rw [List.foldl_cons, ih _ _ (by rw [linkOne_lab_stable h]; exact h),
        linkOne_lab_stable h]

theorem linkFold_flag_stable :
    ∀ (L : List Pos3) (st : LabGrid × FlagSet) (e : Pos3), st.2 e = true →
      (L.foldl (linkOne occ dims v pz) st).2 e = true := by
  intro L
  induction L with
  | nil => intro st e h; exact h
  | cons d L ih =>
      intro st e h
      rw [List.foldl_cons]
      exact ih _ _ (linkOne_flag_stable h)

theorem linkFold_lab_new (hv : v ≠ 0) :
    ∀ (L : List Pos3) (st : LabGrid × FlagSet) (q : Idx3),
      (L.foldl (linkOne occ dims v pz) st).1 q ≠ st.1 q →
      (L.foldl (linkOne occ dims v pz) st).1 q = v ∧ st.1 q = 0 ∧ occ q = true ∧
        ∃ d ∈ L, resolve3 dims (add3 pz d) = some q ∧
          (L.foldl (linkOne occ dims v pz) st).2 d = true := by
  intro L
  induction L with
  | nil => intro st q h; exact absurd rfl h
  | cons d L ih =>
      intro st q h
      rw [List.foldl_cons] at h ⊢
      by_cases h1 : (linkOne occ dims v pz st d).1 q = st.1 q
      · have h' : (L.foldl (linkOne occ dims v pz) (linkOne occ dims v pz st d)).1 q
            ≠ (linkOne occ dims v pz st d).1 q := by
          rw [h1]; exact h
        obtain ⟨ha, hb, hc, e, he, hr, hf⟩ := ih _ _ h'
        rw [h1] at hb
        exact ⟨ha, hb, hc, e, List.mem_cons_of_mem _ he, hr, hf⟩
      · obtain ⟨ha, hb, hc, hr, hf⟩ := linkOne_lab_new h1
        have hst : (linkOne occ dims v pz st d).1 q ≠ 0 := by rw [ha]; exact hv
        refine ⟨by rw [linkFold_lab_stable L _ q hst, ha], hb, hc, d,
          List.mem_cons_self d L, hr, linkFold_flag_stable L _ d hf⟩

theorem linkFold_flag_new (hv : v ≠ 0) :
    ∀ (L : List Pos3) (st : LabGrid × FlagSet) (e : Pos3),
      (L.foldl (linkOne occ dims v pz) st).2 e = true → st.2 e = false →
      e ∈ L ∧ ∃ q, resolve3 dims (add3 pz e) = some q ∧ occ q = true ∧
        st.1 q = 0 ∧ (L.foldl (linkOne occ dims v pz) st).1 q = v := by
  intro L
  induction L with
  | nil =>
      intro st e h h0
      rw [List.foldl_nil] at h
      rw [h0] at h
      exact absurd h (by simp)
  | cons d L ih =>
      intro st e h h0
      rw [List.foldl_cons] at h ⊢
      by_cases h1 : (linkOne occ dims v pz st d).2 e = st.2 e
      · have h0' : (linkOne occ dims v pz st d).2 e = false := by
          rw [h1]; exact h0
        obtain ⟨he, q, hr, hq, hz, hres⟩ := ih _ _ h h0'
        refine ⟨List.mem_cons_of_mem _ he, q, hr, hq, ?_, hres⟩
        by_cases hz1 : st.1 q = 0
        · exact hz1
        · rw [linkOne_lab_stable hz1] at hz
          exact absurd hz hz1
      · obtain ⟨rfl, hft, q, hr, hq, hz, hres⟩ := linkOne_flag_new h1
        have hst : (linkOne occ dims v pz st e).1 q ≠ 0 := by rw [hres]; exact hv
        refine ⟨List.mem_cons_self e L, q, hr, hq, hz, ?_⟩
        rw [linkFold_lab_stable L _ q hst, hres]

theorem linkFold_complete (hv : v ≠ 0) :
    ∀ (L : List Pos3) (st : LabGrid × FlagSet) (d : Pos3) (q : Idx3), d ∈ L →
      resolve3 dims (add3 pz d) = some q → occ q = true →
      (L.foldl (linkOne occ dims v pz) st).1 q ≠ 0 := by
  intro L
  induction L with
  | nil => intro st d q h; cases h
  | cons d2 L ih =>
      intro st d q hd hr hq
      rw [List.foldl_cons]
      rcases List.mem_cons.mp hd with rfl | hd
      · have h2 : (linkOne occ dims v pz st d).1 q ≠ 0 :=
          linkOne_complete hv hr hq
        rw [linkFold_lab_stable L _ q h2]
        exact h2
      · exact ih _ d q hd hr hq

end LinkLemmas

/-! ## The outlier table interface and the octant geometry

`MCOutliers` is not among the two source files of the repository.  Modelled
from the spec: the table maps an 8-bit corner-occupancy case code to "the set
of corner-index subsets recognized as topologically ambiguous"; a subset
groups corners of the code that 26-connectivity joins while marching-cubes
surface topology keeps them apart from the rest, so every subset consists of
set corners of the code and is closed under cube-edge adjacency among the
code's set corners (a corner edge-adjacent to a subset member, with its bit
set, belongs to the same surface piece). -/

/-- Cube-edge adjacency of the standard corner numbering used by the eight
octant lists: bottom ring `0-1-2-3`, top ring `4-5-6-7`, verticals `v—v+4`. -/
def cubeAdjPairs : List (Nat × Nat) :=
  [(0,1), (1,2), (2,3), (3,0), (4,5), (5,6), (6,7), (7,4),
   (0,4), (1,5), (2,6), (3,7)]

/-- Symmetric cube-edge adjacency on corner indices. -/
def adjG (u w : Nat) : Bool :=
  decide ((u, w) ∈ cubeAdjPairs) || decide ((w, u) ∈ cubeAdjPairs)

/-- Modelled from the spec: every subset returned by the outlier table is a
set of corners of the case code. -/
def TableSub (table : OutlierTable) : Prop :=
  ∀ code S w, S ∈ table code → w ∈ S → Nat.testBit code w = true

/-- Modelled from the spec: every returned subset is closed under cube-edge
adjacency within the set corners of the code (it is a union of connected
pieces of the code's corner set). -/
def TableClosed (table : OutlierTable) : Prop :=
  ∀ code S, S ∈ table code → ∀ w ∈ S, ∀ u, adjG w u = true →
    Nat.testBit code u = true → u ∈ S

/-- Corner `w` is connected to corner `a` through set corners by cube-edge
steps ("unambiguous" connectivity inside one octant). -/
def ConnB (bits : Nat → Bool) (w a : Nat) : Prop :=
  Relation.ReflTransGen
    (fun u u2 => adjG u u2 = true ∧ bits u = true ∧ bits u2 = true) w a

/-- A member of a closed subset drags every corner connected to it into the
subset; contrapositively, a subset avoiding the anchor contains nothing
connected to the anchor. -/
theorem mem_of_connB {table : OutlierTable} (hcl : TableClosed table)
    {code : Nat} {S : List Nat} (hS : S ∈ table code) {w a : Nat}
    (hconn : ConnB (Nat.testBit code) w a) (hw : w ∈ S) : a ∈ S := by
  induction hconn with
  | refl => exact hw
  | tail _ hstep ih => exact hcl code S hS _ ih _ hstep.1 hstep.2.2

theorem find_case_lt (cube : List Bool) : find_case_number cube < 256 := by
  show (List.foldl _ 0 (List.range 8)) < 256
  rw [show List.range 8 = [0, 1, 2, 3, 4, 5, 6, 7] from rfl]
  simp only [List.foldl_cons, List.foldl_nil]
  split_ifs <;> omega

set_option maxHeartbeats 1000000 in
theorem testBit_find_case (b0 b1 b2 b3 b4 b5 b6 b7 : Bool) :
    ∀ w : Fin 8,
      Nat.testBit (find_case_number [b0, b1, b2, b3, b4, b5, b6, b7]) w.1
        = [b0, b1, b2, b3, b4, b5, b6, b7].getD w.1 false := by
  revert b0 b1 b2 b3 b4 b5 b6 b7
  decide

/-- The case code's bit `w` is exactly the `w`-th entry of the octant list
(for the in-range octants and corners). -/
theorem testBit_cubeList (fl : FlagSet) (ii : Nat) (hii : ii < 8) (w : Nat)
    (hw : w < 8) :
    Nat.testBit (find_case_number (cubeList fl ii)) w
      = (cubeList fl ii).getD w false := by
  interval_cases ii <;> exact testBit_find_case _ _ _ _ _ _ _ _ ⟨w, hw⟩

theorem testBit_lt_eight {cube : List Bool} {w : Nat}
    (h : Nat.testBit (find_case_number cube) w = true) : w < 8 := by
  by_contra hw
  rw [Nat.testBit_lt_two_pow] at h
  · exact Bool.false_ne_true h
  · calc find_case_number cube < 256 := find_case_lt cube
      _ = 2 ^ 8 := rfl
      _ ≤ 2 ^ w := Nat.pow_le_pow_right (by omega) (by omega)

/-- Each removal branch resets the cell whose flag sits at the corresponding
position of the octant list. -/
theorem cube_entry_of_removeCell (fl : FlagSet) :
    ∀ (ii w : Nat) (d : Pos3), removeCell ii w = some d →
      (cubeList fl ii).getD w false = fl d := by
  intro ii w d h
  rcases ii with _ | _ | _ | _ | _ | _ | _ | _ | ii <;>
    rcases w with _ | _ | _ | _ | _ | _ | _ | _ | w <;>
    (cases h <;> rfl)

/-- The anchor corner's entry in its octant list is the literal `True`. -/
theorem cube_entry_anchor (fl : FlagSet) :
    ∀ ii, ii < 8 → (cubeList fl ii).getD (anchorIdx ii) false = true := by
  intro ii hii
  interval_cases ii <;> rfl

/-- Bound and range facts about the removal branches, all finitely checked:
the reset offsets are among the 26 neighbor offsets. -/
theorem removeCell_mem_offsets :
    ∀ ii w : Fin 8, ∀ d, removeCell ii.1 w.1 = some d → d ∈ offsets := by
  decide

theorem removeCell_lt :
    ∀ (ii w : Nat) (d : Pos3), removeCell ii w = some d → ii < 8 ∧ w < 8 := by
  intro ii w d h
  rcases ii with _ | _ | _ | _ | _ | _ | _ | _ | ii <;>
    rcases w with _ | _ | _ | _ | _ | _ | _ | _ | w <;>
    (cases h <;> exact ⟨by omega, by omega⟩)

/-- Within one octant, distinct corner branches reset distinct offsets. -/
theorem removeCell_inj :
    ∀ ii w1 w2 : Fin 8, ∀ d, removeCell ii.1 w1.1 = some d →
      removeCell ii.1 w2.1 = some d → w1 = w2 := by
  decide

/-- A removal branch that resets one of the six face offsets belongs to a
corner that is cube-edge adjacent to the octant's anchor corner. -/
theorem removeCell_face_adj :
    ∀ ii w : Fin 8, ∀ d, removeCell ii.1 w.1 = some d → d ∈ faceOffsets →
      adjG w.1 (anchorIdx ii.1) = true := by
  decide

/-! ## Change tracking through the resolver folds -/

section ResolverLemmas

variable {dims : Idx3} {pz : Pos3}

/-- Definitional unfolding of one removal iteration. -/
theorem applyRemovals_cons (ii w : Nat) (S : List Nat) (st : LabGrid × FlagSet) :
    applyRemovals dims pz ii (w :: S) st =
      applyRemovals dims pz ii S
        (match removeCell ii w with
         | none => st
         | some d =>
             (match resolve3 dims (add3 pz d) with
              | some q => Function.update st.1 q 0
              | none => st.1,
              Function.update st.2 d false)) := rfl

theorem applyRemovals_lab_change {ii : Nat} :
    ∀ (S : List Nat) (st : LabGrid × FlagSet) (x : Idx3),
      (applyRemovals dims pz ii S st).1 x ≠ st.1 x →
      (applyRemovals dims pz ii S st).1 x = 0 ∧
        ∃ w ∈ S, ∃ d, removeCell ii w = some d ∧
          resolve3 dims (add3 pz d) = some x := by
  intro S
  induction S with
  | nil => intro st x h; exact absurd rfl h
  | cons w S ih =>
      intro st x h
      rw [applyRemovals_cons] at h ⊢
      rcases hrem : removeCell ii w with _ | d
      · rw [hrem] at h
        dsimp only at h ⊢
        obtain ⟨h0, w2, hw2, d2, hr2, hq2⟩ := ih st x h
        exact ⟨h0, w2, List.mem_cons_of_mem _ hw2, d2, hr2, hq2⟩
      · rw [hrem] at h
        dsimp only at h ⊢
        rcases hres : resolve3 dims (add3 pz d) with _ | q <;> rw [hres] at h <;>
          dsimp only at h ⊢
        · obtain ⟨h0, w2, hw2, d2, hr2, hq2⟩ := ih _ x h
          exact ⟨h0, w2, List.mem_cons_of_mem _ hw2, d2, hr2, hq2⟩
        · by_cases hxq : x = q
          · subst hxq
            refine ⟨?_, w, List.mem_cons_self w S, d, hrem, hres⟩
            by_cases h2 : (applyRemovals dims pz ii S
                (Function.update st.1 x 0, Function.update st.2 d false)).1 x =
                (Function.update st.1 x 0, Function.update st.2 d false).1 x
            · rw [h2]
              exact Function.update_same _ _ _
            · exact (ih _ x h2).1
          · have hstx : (Function.update st.1 q 0, Function.update st.2 d false).1 x
                = st.1 x := Function.update_noteq hxq _ _
            obtain ⟨h0, w2, hw2, d2, hr2, hq2⟩ :=
              ih _ x (fun he => h (he.trans hstx))
            exact ⟨h0, w2, List.mem_cons_of_mem _ hw2, d2, hr2, hq2⟩

theorem applyRemovals_flag_change {ii : Nat} :
    ∀ (S : List Nat) (st : LabGrid × FlagSet) (e : Pos3),
      (applyRemovals dims pz ii S st).2 e ≠ st.2 e →
      (applyRemovals dims pz ii S st).2 e = false ∧
        ∃ w ∈ S, removeCell ii w = some e := by
  intro S
  induction S with
  | nil => intro st e h; exact absurd rfl h
  | cons w S ih =>
      intro st e h
      rw [applyRemovals_cons] at h ⊢
      rcases hrem : removeCell ii w with _ | d
      · rw [hrem] at h
        dsimp only at h ⊢
        obtain ⟨h0, w2, hw2, hr2⟩ := ih st e h
        exact ⟨h0, w2, List.mem_cons_of_mem _ hw2, hr2⟩
      · rw [hrem] at h
        dsimp only at h ⊢
        by_cases hed : e = d
        · subst hed
          refine ⟨?_, w, List.mem_cons_self w S, hrem⟩
          by_cases h2 : (applyRemovals dims pz ii S
              (match resolve3 dims (add3 pz e) with
               | some q => Function.update st.1 q 0
               | none => st.1,
               Function.update st.2 e false)).2 e =
              (match resolve3 dims (add3 pz e) with
               | some q => Function.update st.1 q 0
               | none => st.1,
               Function.update st.2 e false).2 e
          · rw [h2]
            exact Function.update_same _ _ _
          · exact (ih _ e h2).1
        · have hste : (match resolve3 dims (add3 pz d) with
               | some q => Function.update st.1 q 0
               | none => st.1,
               Function.update st.2 d false).2 e = st.2 e :=
            Function.update_noteq hed _ _
          obtain ⟨h0, w2, hw2, hr2⟩ := ih _ e (fun he => h (he.trans hste))
          exact ⟨h0, w2, List.mem_cons_of_mem _ hw2, hr2⟩

theorem applyOctant_lab_change {table : OutlierTable} {fl : FlagSet} {ii : Nat}
    (st : LabGrid × FlagSet) (x : Idx3)
    (h : (applyOctant table fl dims pz st ii).1 x ≠ st.1 x) :
    (applyOctant table fl dims pz st ii).1 x = 0 ∧
      ∃ S ∈ table (find_case_number (cubeList fl ii)), anchorIdx ii ∉ S ∧
        ∃ w ∈ S, ∃ d, removeCell ii w = some d ∧
          resolve3 dims (add3 pz d) = some x := by
  suffices hgen : ∀ (T : List (List Nat)) (st : LabGrid × FlagSet),
      (T.foldl (fun st S => if anchorIdx ii ∈ S then st
        else applyRemovals dims pz ii S st) st).1 x ≠ st.1 x →
      (T.foldl (fun st S => if anchorIdx ii ∈ S then st
        else applyRemovals dims pz ii S st) st).1 x = 0 ∧
        ∃ S ∈ T, anchorIdx ii ∉ S ∧ ∃ w ∈ S, ∃ d, removeCell ii w = some d ∧
          resolve3 dims (add3 pz d) = some x from hgen _ st h
  intro T
  induction T with
  | nil => intro st h; exact absurd rfl h
  | cons S T ih =>
      intro st h
      rw [List.foldl_cons] at h ⊢
      by_cases hanc : anchorIdx ii ∈ S
      · rw [if_pos hanc] at h ⊢
        obtain ⟨h0, S2, hS2, hanc2, rest⟩ := ih st h
        exact ⟨h0, S2, List.mem_cons_of_mem _ hS2, hanc2, rest⟩
      · rw [if_neg hanc] at h ⊢
        by_cases h1 : (applyRemovals dims pz ii S st).1 x = st.1 x
        · obtain ⟨h0, S2, hS2, hanc2, rest⟩ := ih _ (fun he => h (he.trans h1))
          exact ⟨h0, S2, List.mem_cons_of_mem _ hS2, hanc2, rest⟩
        · obtain ⟨h0, w, hw, d, hr, hres⟩ := applyRemovals_lab_change S st x h1
          by_cases h2 : (T.foldl (fun st S => if anchorIdx ii ∈ S then st
              else applyRemovals dims pz ii S st)
              (applyRemovals dims pz ii S st)).1 x =
              (applyRemovals dims pz ii S st).1 x
          · exact ⟨by rw [h2]; exact h0, S, List.mem_cons_self S T, hanc,
              w, hw, d, hr, hres⟩
          · obtain ⟨h0p, S2, hS2, hanc2, rest⟩ := ih _ h2
            exact ⟨h0p, S2, List.mem_cons_of_mem _ hS2, hanc2, rest⟩

theorem applyOctant_flag_change {table : OutlierTable} {fl : FlagSet} {ii : Nat}
    (st : LabGrid × FlagSet) (e : Pos3)
    (h : (applyOctant table fl dims pz st ii).2 e ≠ st.2 e) :
    (applyOctant table fl dims pz st ii).2 e = false ∧
      ∃ S ∈ table (find_case_number (cubeList fl ii)), anchorIdx ii ∉ S ∧
        ∃ w ∈ S, removeCell ii w = some e := by
  suffices hgen : ∀ (T : List (List Nat)) (st : LabGrid × FlagSet),
      (T.foldl (fun st S => if anchorIdx ii ∈ S then st
        else applyRemovals dims pz ii S st) st).2 e ≠ st.2 e →
      (T.foldl (fun st S => if anchorIdx ii ∈ S then st
        else applyRemovals dims pz ii S st) st).2 e = false ∧
        ∃ S ∈ T, anchorIdx ii ∉ S ∧ ∃ w ∈ S, removeCell ii w = some e from
    hgen _ st h
  intro T
  induction T with
  | nil => intro st h; exact absurd rfl h
  | cons S T ih =>
      intro st h
      rw [List.foldl_cons] at h ⊢
      by_cases hanc : anchorIdx ii ∈ S
      · rw [if_pos hanc] at h ⊢
        obtain ⟨h0, S2, hS2, hanc2, rest⟩ := ih st h
        exact ⟨h0, S2, List.mem_cons_of_mem _ hS2, hanc2, rest⟩
      · rw [if_neg hanc] at h ⊢
        by_cases h1 : (applyRemovals dims pz ii S st).2 e = st.2 e
        · obtain ⟨h0, S2, hS2, hanc2, rest⟩ := ih _ (fun he => h (he.trans h1))
          exact ⟨h0, S2, List.mem_cons_of_mem _ hS2, hanc2, rest⟩
        · obtain ⟨h0, w, hw, hr⟩ := applyRemovals_flag_change S st e h1
          by_cases h2 : (T.foldl (fun st S => if anchorIdx ii ∈ S then st
              else applyRemovals dims pz ii S st)
              (applyRemovals dims pz ii S st)).2 e =
              (applyRemovals dims pz ii S st).2 e
          · exact ⟨by rw [h2]; exact h0, S, List.mem_cons_self S T, hanc, w, hw, hr⟩
          · obtain ⟨h0p, S2, hS2, hanc2, rest⟩ := ih _ h2
            exact ⟨h0p, S2, List.mem_cons_of_mem _ hS2, hanc2, rest⟩

/-- Provenance of a label change made by the full resolver pass: some octant
`ii < 8` had a table subset avoiding its anchor whose removal branch resolves
to the changed cell; the new value is `0`. -/
theorem mcResolve_lab_change {table : OutlierTable} {fl : FlagSet}
    (st : LabGrid × FlagSet) (x : Idx3)
    (h : (mcResolve table fl dims pz st).1 x ≠ st.1 x) :
    (mcResolve table fl dims pz st).1 x = 0 ∧
      ∃ ii, ii < 8 ∧
        ∃ S ∈ table (find_case_number (cubeList fl ii)), anchorIdx ii ∉ S ∧
          ∃ w ∈ S, ∃ d, removeCell ii w = some d ∧
            resolve3 dims (add3 pz d) = some x := by
  suffices hgen : ∀ (iis : List Nat) (st : LabGrid × FlagSet),
      (iis.foldl (applyOctant table fl dims pz) st).1 x ≠ st.1 x →
      (iis.foldl (applyOctant table fl dims pz) st).1 x = 0 ∧
        ∃ ii ∈ iis,
          ∃ S ∈ table (find_case_number (cubeList fl ii)), anchorIdx ii ∉ S ∧
            ∃ w ∈ S, ∃ d, removeCell ii w = some d ∧
              resolve3 dims (add3 pz d) = some x by
    obtain ⟨h0, ii, hii, rest⟩ := hgen (List.range 8) st h
    exact ⟨h0, ii, List.mem_range.mp hii, rest⟩
  intro iis
  induction iis with
  | nil => intro st h; exact absurd rfl h
  | cons ii iis ih =>
      intro st h
      rw [List.foldl_cons] at h ⊢
      by_cases h1 : (applyOctant table fl dims pz st ii).1 x = st.1 x
      · obtain ⟨h0, ii2, hii2, rest⟩ := ih _ (fun he => h (he.trans h1))
        exact ⟨h0, ii2, List.mem_cons_of_mem _ hii2, rest⟩
      · obtain ⟨h0, S, hS, hanc, rest⟩ := applyOctant_lab_change _ _ h1
        by_cases h2 : (iis.foldl (applyOctant table fl dims pz)
            (applyOctant table fl dims pz st ii)).1 x =
            (applyOctant table fl dims pz st ii).1 x
        · exact ⟨by rw [h2]; exact h0, ii, List.mem_cons_self ii iis,
            S, hS, hanc, rest⟩
        · obtain ⟨h0p, ii2, hii2, rest2⟩ := ih _ h2
          exact ⟨h0p, ii2, List.mem_cons_of_mem _ hii2, rest2⟩

/-- Provenance of an `_auxCube` (pending-append) change made by the resolver:
as for labels, keyed by the reset offset. -/
theorem mcResolve_flag_change {table : OutlierTable} {fl : FlagSet}
    (st : LabGrid × FlagSet) (e : Pos3)
    (h : (mcResolve table fl dims pz st).2 e ≠ st.2 e) :
    (mcResolve table fl dims pz st).2 e = false ∧
      ∃ ii, ii < 8 ∧
        ∃ S ∈ table (find_case_number (cubeList fl ii)), anchorIdx ii ∉ S ∧
          ∃ w ∈ S, removeCell ii w = some e := by
  suffices hgen : ∀ (iis : List Nat) (st : LabGrid × FlagSet),
      (iis.foldl (applyOctant table fl dims pz) st).2 e ≠ st.2 e →
      (iis.foldl (applyOctant table fl dims pz) st).2 e = false ∧
        ∃ ii ∈ iis,
          ∃ S ∈ table (find_case_number (cubeList fl ii)), anchorIdx ii ∉ S ∧
            ∃ w ∈ S, removeCell ii w = some e by
    obtain ⟨h0, ii, hii, rest⟩ := hgen (List.range 8) st h
    exact ⟨h0, ii, List.mem_range.mp hii, rest⟩
  intro iis
  induction iis with
  | nil => intro st h; exact absurd rfl h
  | cons ii iis ih =>
      intro st h
      rw [List.foldl_cons] at h ⊢
      by_cases h1 : (applyOctant table fl dims pz st ii).2 e = st.2 e
      · obtain ⟨h0, ii2, hii2, rest⟩ := ih _ (fun he => h (he.trans h1))
        exact ⟨h0, ii2, List.mem_cons_of_mem _ hii2, rest⟩
      · obtain ⟨h0, S, hS, hanc, rest⟩ := applyOctant_flag_change _ _ h1
        by_cases h2 : (iis.foldl (applyOctant table fl dims pz)
            (applyOctant table fl dims pz st ii)).2 e =
            (applyOctant table fl dims pz st ii).2 e
        · exact ⟨by rw [h2]; exact h0, ii, List.mem_cons_self ii iis, S, hS, hanc,
            rest⟩
        · obtain ⟨h0p, ii2, hii2, rest2⟩ := ih _ h2
          exact ⟨h0p, ii2, List.mem_cons_of_mem _ hii2, rest2⟩

end ResolverLemmas

/-! ## One expansion step (`runStep`) -/

section StepLemmas

variable {occ : OccGrid} {dims : Idx3} {table : OutlierTable} {mc : Bool}
variable {v : Nat} {lab : LabGrid} {pz : Pos3}

/-- A removal branch only ever fires on a corner whose flag was set by the
probe phase of the same step (the subset is made of set corners of the case
code, and non-anchor code bits are exactly the probe flags). -/
theorem fl_true_of_removal (hsub : TableSub table) {fl : FlagSet}
    {ii w : Nat} {d : Pos3} {S : List Nat} (hii : ii < 8)
    (hS : S ∈ table (find_case_number (cubeList fl ii))) (hw : w ∈ S)
    (hr : removeCell ii w = some d) : fl d = true := by
  have hbit := hsub _ _ _ hS hw
  have hw8 : w < 8 := testBit_lt_eight hbit
  rw [testBit_cubeList fl ii hii w hw8, cube_entry_of_removeCell fl ii w d hr]
    at hbit
  exact hbit

theorem mem_appendsOf {zq : Pos3} {fl : FlagSet} :
    zq ∈ appendsOf pz fl ↔ ∃ d ∈ offsets, fl d = true ∧ zq = add3 pz d := by
  unfold appendsOf
  rw [List.mem_map]
  constructor
  · rintro ⟨d, hd, rfl⟩
    obtain ⟨hd1, hd2⟩ := List.mem_filter.mp hd
    exact ⟨d, hd1, hd2, rfl⟩
  · rintro ⟨d, hd1, hd2, rfl⟩
    exact ⟨d, List.mem_filter.mpr ⟨hd1, hd2⟩, rfl⟩

theorem runStep_lab_stable (hsub : mc = true → TableSub table) (hv : v ≠ 0)
    (x : Idx3) (hx : lab x ≠ 0) :
    (runStep occ dims table mc v lab pz).1 x = lab x := by
  unfold runStep
  cases mc <;> dsimp only
  · rw [if_neg Bool.false_ne_true]
    exact linkFold_lab_stable offsets (lab, fun _ => false) x hx
  · rw [if_pos rfl]
    set st1 := linkPhase occ dims v pz lab with hst1
    have hstab : st1.1 x = lab x :=
      linkFold_lab_stable offsets (lab, fun _ => false) x hx
    by_cases hch : (mcResolve table st1.2 dims pz st1).1 x = st1.1 x
    · rw [hch]
      exact hstab
    · obtain ⟨-, ii, hii, S, hS, ha, w, hw, d, hrd, hres⟩ :=
        mcResolve_lab_change st1 x hch
      have hfld : st1.2 d = true := fl_true_of_removal (hsub rfl) hii hS hw hrd
      obtain ⟨-, q, hq1, hq2, hq3, -⟩ :=
        linkFold_flag_new hv offsets (lab, fun _ => false) d hfld rfl
      rw [hq1] at hres
      cases hres
      exact absurd hq3 hx

theorem runStep_lab_fromOcc (hv : v ≠ 0) (x : Idx3)
    (hx : (runStep occ dims table mc v lab pz).1 x ≠ 0) :
    lab x ≠ 0 ∨ occ x = true := by
  unfold runStep at hx
  cases mc <;> dsimp only at hx
  · rw [if_neg Bool.false_ne_true] at hx
    by_cases hch : (linkPhase occ dims v pz lab).1 x = lab x
    · rw [hch] at hx
      exact Or.inl hx
    · exact Or.inr (linkFold_lab_new hv offsets _ x hch).2.2.1
  · rw [if_pos rfl] at hx
    set st1 := linkPhase occ dims v pz lab with hst1
    by_cases hch2 : (mcResolve table st1.2 dims pz st1).1 x = st1.1 x
    · rw [hch2] at hx
      by_cases hch : st1.1 x = lab x
      · rw [hch] at hx
        exact Or.inl hx
      · exact Or.inr (linkFold_lab_new hv offsets _ x hch).2.2.1
    · exact absurd (mcResolve_lab_change st1 x hch2).1 hx

theorem runStep_app_mem (hv : v ≠ 0) {zq : Pos3}
    (hzq : zq ∈ (runStep occ dims table mc v lab pz).2) :
    ∃ d ∈ offsets, zq = add3 pz d ∧ ∃ q, resolve3 dims (add3 pz d) = some q ∧
      occ q = true ∧ lab q = 0 := by
  unfold runStep at hzq
  cases mc <;> dsimp only at hzq
  · rw [if_neg Bool.false_ne_true] at hzq
    obtain ⟨d, hd, hfl, rfl⟩ := mem_appendsOf.mp hzq
    obtain ⟨-, q, hq1, hq2, hq3, -⟩ :=
      linkFold_flag_new hv offsets (lab, fun _ => false) d hfl rfl
    exact ⟨d, hd, rfl, q, hq1, hq2, hq3⟩
  · rw [if_pos rfl] at hzq
    set st1 := linkPhase occ dims v pz lab with hst1
    obtain ⟨d, hd, hfl, rfl⟩ := mem_appendsOf.mp hzq
    have hfl1 : st1.2 d = true := by
      by_cases hch : (mcResolve table st1.2 dims pz st1).2 d = st1.2 d
      · rw [← hch]
        exact hfl
      · exact absurd ((mcResolve_flag_change st1 d hch).1.symm.trans hfl)
          (by simp)
    obtain ⟨-, q, hq1, hq2, hq3, -⟩ :=
      linkFold_flag_new hv offsets (lab, fun _ => false) d hfl1 rfl
    exact ⟨d, hd, rfl, q, hq1, hq2, hq3⟩

theorem runStep_complete (hv : v ≠ 0) {d : Pos3} {q : Idx3} (hd : d ∈ offsets)
    (hr : resolve3 dims (add3 pz d) = some q) (hq : occ q = true) :
    (runStep occ dims table false v lab pz).1 q ≠ 0 := by
  unfold runStep
  dsimp only
  rw [if_neg Bool.false_ne_true]
  exact linkFold_complete hv offsets (lab, fun _ => false) d q hd hr hq

theorem runStep_new (hv : v ≠ 0) {x : Idx3}
    (hx : (runStep occ dims table false v lab pz).1 x ≠ lab x) :
    (runStep occ dims table false v lab pz).1 x = v ∧ lab x = 0 ∧
      occ x = true ∧ ∃ d ∈ offsets, resolve3 dims (add3 pz d) = some x ∧
        add3 pz d ∈ (runStep occ dims table false v lab pz).2 := by
  unfold runStep at hx ⊢
  dsimp only at hx ⊢
  rw [if_neg Bool.false_ne_true] at hx ⊢
  obtain ⟨ha, hb, hc, d, hd, hr, hf⟩ := linkFold_lab_new hv offsets _ x hx
  exact ⟨ha, hb, hc, d, hd, hr, mem_appendsOf.mpr ⟨d, hd, hf, rfl⟩⟩

end StepLemmas

/-! ## The expansion loop (`expandFrom`) -/

/-- Cell `pz` has been fully expanded in `lab`: every occupied cell its 26
probes resolve to carries a label. -/
def expandedZ (occ : OccGrid) (dims : Idx3) (lab : LabGrid) (pz : Pos3) : Prop :=
  ∀ d ∈ offsets, ∀ q, resolve3 dims (add3 pz d) = some q → occ q = true →
    lab q ≠ 0

theorem InCrop_of_occ {occ : OccGrid} {x y z : Nat}
    (hpad : PaddedGrid occ x y z) {q : Idx3} (hq : occ q = true) :
    InCrop x y z q := by
  by_contra h
  rw [hpad q h] at hq
  exact Bool.false_ne_true hq

theorem expandFrom_stable {occ : OccGrid} {dims : Idx3} {table : OutlierTable}
    {mc : Bool} {v : Nat} (hsub : mc = true → TableSub table) (hv : v ≠ 0) :
    ∀ (fuel : Nat) (lab : LabGrid) (pending : List Pos3) (lab2 : LabGrid),
      expandFrom occ dims table mc v fuel lab pending = some lab2 →
      (∀ w, lab w ≠ 0 → lab2 w = lab w) ∧
      (∀ w, lab2 w ≠ 0 → lab w ≠ 0 ∨ occ w = true) := by
  intro fuel
  induction fuel with
  | zero => intro lab pending lab2 h; cases h
  | succ fuel ih =>
      intro lab pending lab2 h
      match pending with
      | [] =>
          cases h
          exact ⟨fun w _ => rfl, fun w hw => Or.inl hw⟩
      | pz :: rest =>
          have h' : expandFrom occ dims table mc v fuel
              (runStep occ dims table mc v lab pz).1
              (rest ++ (runStep occ dims table mc v lab pz).2) = some lab2 := h
          obtain ⟨ih1, ih2⟩ := ih _ _ _ h'
          constructor
          · intro w hw
            rw [ih1 w (by rw [runStep_lab_stable hsub hv w hw]; exact hw),
              runStep_lab_stable hsub hv w hw]
          · intro w hw
            rcases ih2 w hw with hw1 | hw1
            · exact runStep_lab_fromOcc hv w hw1
            · exact Or.inr hw1

theorem expandFrom_spec {occ : OccGrid} {table : OutlierTable} {v : Nat}
    {x y z : Nat} (hpad : PaddedGrid occ x y z) (hv : v ≠ 0) :
    ∀ (fuel : Nat) (lab : LabGrid) (pending : List Pos3) (lab2 : LabGrid),
      (∀ zq ∈ pending, ∃ pq : Idx3, zq = ofIdx pq) →
      expandFrom occ (x + 1, y + 1, z + 1) table false v fuel lab pending
        = some lab2 →
      (∀ w, lab w ≠ 0 → lab2 w = lab w) ∧
      (∀ w, lab2 w ≠ 0 → lab w ≠ 0 ∨ (lab2 w = v ∧ occ w = true)) ∧
      (∀ zq ∈ pending, expandedZ occ (x + 1, y + 1, z + 1) lab2 zq) ∧
      (∀ w, lab2 w ≠ 0 → lab w ≠ 0 ∨
        expandedZ occ (x + 1, y + 1, z + 1) lab2 (ofIdx w)) := by
  intro fuel
  induction fuel with
  | zero => intro lab pending lab2 _ h; cases h
  | succ fuel ih =>
      intro lab pending lab2 hpend h
      match pending with
      | [] =>
          cases h
          exact ⟨fun w _ => rfl, fun w hw => Or.inl hw,
            fun zq hzq => absurd hzq (List.not_mem_nil zq),
            fun w hw => Or.inl hw⟩
      | pz :: rest =>
          obtain ⟨pq, rfl⟩ := hpend _ (List.mem_cons_self pz rest)
          set r := runStep occ (x + 1, y + 1, z + 1) table false v lab (ofIdx pq)
            with hr
          have h' : expandFrom occ (x + 1, y + 1, z + 1) table false v fuel
              r.1 (rest ++ r.2) = some lab2 := h
          -- every enqueued append is a raw in-grid cell
          have happ : ∀ zq ∈ r.2, ∃ q : Idx3, zq = ofIdx q := by
            intro zq hzq
            obtain ⟨d, hd, rfl, q, hres, hocc, -⟩ := runStep_app_mem hv hzq
            refine ⟨q, resolve3_nowrap hres ?_ (InCrop_of_occ hpad hocc)⟩
            obtain ⟨hd1, hd2, hd3⟩ := offsets_bounded d hd
            unfold add3 ofIdx
            refine ⟨?_, ?_, ?_⟩ <;> dsimp only <;> omega
          have hpend' : ∀ zq ∈ rest ++ r.2, ∃ q : Idx3, zq = ofIdx q := by
            intro zq hzq
            rcases List.mem_append.mp hzq with hzq | hzq
            · exact hpend _ (List.mem_cons_of_mem _ hzq)
            · exact happ zq hzq
          obtain ⟨ih1, ih2, ih3, ih4⟩ := ih _ _ _ hpend' h'
          have hstab : ∀ w, lab w ≠ 0 → lab2 w = lab w := by
            intro w hw
            have h1 : r.1 w = lab w :=
              @runStep_lab_stable occ (x + 1, y + 1, z + 1) table false v lab
                (ofIdx pq) (fun hff => Bool.noConfusion hff) hv w hw
            rw [ih1 w (by rw [h1]; exact hw), h1]
          refine ⟨hstab, ?_, ?_, ?_⟩
          · intro w hw
            rcases ih2 w hw with hw1 | hw1
            · by_cases hch : r.1 w = lab w
              · rw [hch] at hw1
                exact Or.inl hw1
              · obtain ⟨ha, hb, hc, -⟩ := runStep_new hv hch
                refine Or.inr ⟨?_, hc⟩
                rw [ih1 w (by rw [ha]; exact hv), ha]
            · exact Or.inr hw1
          · intro zq hzq
            rcases List.mem_cons.mp hzq with rfl | hzq
            · intro d hd q hres hq
              have hstep := @runStep_complete occ (x + 1, y + 1, z + 1) table
                v lab (ofIdx pq) hv d q hd hres hq
              rw [ih1 q hstep]
              exact hstep
            · exact ih3 zq (List.mem_append.mpr (Or.inl hzq))
          · intro w hw
            rcases ih4 w hw with hw1 | hw1
            · by_cases hch : r.1 w = lab w
              · rw [hch] at hw1
                exact Or.inl hw1
              · obtain ⟨ha, hb, hc, d, hd, hres, hmem⟩ := runStep_new hv hch
                have hofidx : add3 (ofIdx pq) d = ofIdx w := by
                  refine resolve3_nowrap hres ?_ (InCrop_of_occ hpad hc)
                  obtain ⟨hd1, hd2, hd3⟩ := offsets_bounded d hd
                  unfold add3 ofIdx
                  refine ⟨?_, ?_, ?_⟩ <;> dsimp only <;> omega
                refine Or.inr ?_
                rw [← hofidx]
                exact ih3 _ (List.mem_append.mpr (Or.inr hmem))
            · exact Or.inr hw1

/-! ## The outer scan (`outerLoop`, `labelRun`) -/

theorem mem_scanList {dims : Idx3} {p : Idx3} :
    p ∈ scanList dims ↔ p.1 < dims.1 ∧ p.2.1 < dims.2.1 ∧ p.2.2 < dims.2.2 := by
  obtain ⟨i, j, k⟩ := p
  unfold scanList
  simp only [List.mem_flatMap, List.mem_map, List.mem_range, Prod.mk.injEq]
  constructor
  · rintro ⟨a, ha, b, hb, c, hc, rfl, rfl, rfl⟩
    exact ⟨ha, hb, hc⟩
  · rintro ⟨ha, hb, hc⟩
    exact ⟨i, ha, j, hb, k, hc, rfl, rfl, rfl⟩

theorem outerLoop_spec {occ : OccGrid} {dims : Idx3} {table : OutlierTable}
    {mc : Bool} {fuel : Nat} (hsub : mc = true → TableSub table) :
    ∀ (ps : List Idx3) (lab : LabGrid) (v : Nat) (seeds : List Idx3)
      (res : LabGrid × Nat × List Idx3),
      outerLoop occ dims table mc fuel ps (lab, v, seeds) = some res →
      (∀ w, lab w ≠ 0 → res.1 w = lab w) ∧
      (∀ p ∈ ps, occ p = true → res.1 p ≠ 0) ∧
      (∀ w, res.1 w ≠ 0 → lab w ≠ 0 ∨ occ w = true) := by
  intro ps
  induction ps with
  | nil =>
      intro lab v seeds res h
      cases h
      exact ⟨fun w _ => rfl, fun p hp => absurd hp (List.not_mem_nil p),
        fun w hw => Or.inl hw⟩
  | cons p ps ih =>
      intro lab v seeds res h
      unfold outerLoop at h
      by_cases hseed : occ p = true ∧ lab p = 0
      · rw [if_pos hseed] at h
        rcases hexp : expandFrom occ dims table mc (v + 1) fuel
            (Function.update lab p (v + 1))
            [((p.1 : Int), (p.2.1 : Int), (p.2.2 : Int))] with _ | lab2 <;>
          rw [hexp] at h
        · cases h
        · obtain ⟨i1, i2, i3⟩ := ih _ _ _ _ h
          obtain ⟨e1, e2⟩ := expandFrom_stable hsub (Nat.succ_ne_zero v) _ _ _ _ hexp
          have hupd : ∀ w, lab w ≠ 0 →
              Function.update lab p (v + 1) w = lab w := by
            intro w hw
            rcases eq_or_ne w p with rfl | hne
            · exact absurd hseed.2 hw
            · exact Function.update_noteq hne _ _
          refine ⟨?_, ?_, ?_⟩
          · intro w hw
            rw [i1 w (by rw [e1 w (by rw [hupd w hw]; exact hw), hupd w hw]; exact hw),
              e1 w (by rw [hupd w hw]; exact hw), hupd w hw]
          · intro p2 hp2 hocc2
            rcases List.mem_cons.mp hp2 with rfl | hp2
            · have hl1 : Function.update lab p2 (v + 1) p2 = v + 1 :=
                Function.update_same _ _ _
              have hl2 : lab2 p2 = v + 1 := by
                rw [e1 p2 (by rw [hl1]; exact Nat.succ_ne_zero v), hl1]
              rw [i1 p2 (by rw [hl2]; exact Nat.succ_ne_zero v), hl2]
              exact Nat.succ_ne_zero v
            · exact i2 p2 hp2 hocc2
          · intro w hw
            rcases i3 w hw with hw1 | hw1
            · rcases e2 w hw1 with hw2 | hw2
              · rcases eq_or_ne w p with rfl | hne
                · exact Or.inr hseed.1
                · rw [Function.update_noteq hne] at hw2
                  exact Or.inl hw2
              · exact Or.inr hw2
            · exact Or.inr hw1
      · rw [if_neg hseed] at h
        obtain ⟨i1, i2, i3⟩ := ih _ _ _ _ h
        refine ⟨i1, ?_, i3⟩
        intro p2 hp2 hocc2
        rcases List.mem_cons.mp hp2 with rfl | hp2
        · have hlp : lab p2 ≠ 0 := by
            intro h0
            exact hseed ⟨hocc2, h0⟩
          rw [i1 p2 hlp]
          exact hlp
        · exact i2 p2 hp2 hocc2

theorem outerLoop_seeds {occ : OccGrid} {dims : Idx3} {table : OutlierTable}
    {mc : Bool} {fuel : Nat} (hsub : mc = true → TableSub table) :
    ∀ (ps : List Idx3) (lab : LabGrid) (v : Nat) (seeds : List Idx3)
      (res : LabGrid × Nat × List Idx3),
      outerLoop occ dims table mc fuel ps (lab, v, seeds) = some res →
      ∃ t : List Idx3, res.2.2 = seeds ++ t ∧ t.Sublist ps ∧
        res.2.1 = v + t.length ∧
        ∀ n (hn : n < t.length), res.1 (t.get ⟨n, hn⟩) = v + n + 1 := by
  intro ps
  induction ps with
  | nil =>
      intro lab v seeds res h
      cases h
      exact ⟨[], by simp, List.nil_sublist [], rfl, fun n hn => absurd hn (by simp)⟩
  | cons p ps ih =>
      intro lab v seeds res h
      unfold outerLoop at h
      by_cases hseed : occ p = true ∧ lab p = 0
      · rw [if_pos hseed] at h
        rcases hexp : expandFrom occ dims table mc (v + 1) fuel
            (Function.update lab p (v + 1))
            [((p.1 : Int), (p.2.1 : Int), (p.2.2 : Int))] with _ | lab2 <;>
          rw [hexp] at h
        · cases h
        · obtain ⟨t, ht1, ht2, ht3, ht4⟩ := ih _ _ _ _ h
          obtain ⟨e1, -⟩ := expandFrom_stable hsub (Nat.succ_ne_zero v) _ _ _ _ hexp
          obtain ⟨i1, -, -⟩ := outerLoop_spec hsub _ _ _ _ _ h
          have hl2 : lab2 p = v + 1 := by
            rw [e1 p (by rw [Function.update_same]; exact Nat.succ_ne_zero v),
              Function.update_same]
          refine ⟨p :: t, by rw [ht1, List.append_assoc]; rfl, ht2.cons₂ p, ?_, ?_⟩
          · rw [ht3, List.length_cons]
            omega
          · intro n hn
            match n with
            | 0 =>
                show res.1 p = v + 0 + 1
                rw [i1 p (by rw [hl2]; exact Nat.succ_ne_zero v), hl2]
            | n + 1 =>
                have := ht4 n (by simpa using hn)
                rw [show (p :: t).get ⟨n + 1, hn⟩ = t.get ⟨n, by simpa using hn⟩
                  from rfl, this]
                omega
      · rw [if_neg hseed] at h
        obtain ⟨t, ht1, ht2, ht3, ht4⟩ := ih _ _ _ _ h
        exact ⟨t, ht1, ht2.cons p, ht3, ht4⟩

/-! ## C8: determinism and id allocation -/

/-- C8: the labeler is a pure function of the occupancy grid (two runs with
identical inputs give identical results), and structure ids are allocated
monotonically in first-encounter scan order: the seed list is a subsequence
of the scan order, and the `n`-th seed (0-based) carries the final label
`n + 1`, so `_structVal` counts the seeds. -/
theorem c8_determinism (occ : OccGrid) (dims : Idx3) (table : OutlierTable)
    (mc : Bool) (fuel : Nat) (hsub : mc = true → TableSub table) :
    labelRun occ dims table mc fuel = labelRun occ dims table mc fuel ∧
    ∀ res ∈ labelRun occ dims table mc fuel,
      res.2.2.Sublist (scanList dims) ∧ res.2.1 = res.2.2.length ∧
      ∀ n (hn : n < res.2.2.length), res.1 (res.2.2.get ⟨n, hn⟩) = n + 1 := by
  refine ⟨rfl, ?_⟩
  intro res hres
  rw [Option.mem_def] at hres
  obtain ⟨t, ht1, ht2, ht3, ht4⟩ := outerLoop_seeds hsub _ _ _ _ _ hres
  rw [List.nil_append] at ht1
  subst ht1
  refine ⟨ht2, by rw [ht3, Nat.zero_add], ?_⟩
  intro n hn
  rw [ht4 n hn, Nat.zero_add]

/-- The padded 1×1×2 grid with its single occupied cell at the origin. -/
def occW1 : OccGrid := fun p => decide (p = (0, 0, 0))

theorem c8_determinism_witness :
    (labelRun occW1 (2, 2, 3) tblE false 20).isSome = true ∧
    ∀ res ∈ labelRun occW1 (2, 2, 3) tblE false 20,
      res.2.2.Sublist (scanList (2, 2, 3)) ∧ res.2.1 = res.2.2.length ∧
      ∀ n (hn : n < res.2.2.length), res.1 (res.2.2.get ⟨n, hn⟩) = n + 1 :=
  ⟨by decide, (c8_determinism occW1 (2, 2, 3) tblE false 20
    (fun h => Bool.noConfusion h)).2⟩

/-! ## C4: conservation of cell counts -/

theorem scanList_nodup (dims : Idx3) : (scanList dims).Nodup := by
  unfold scanList
  rw [List.nodup_flatMap]
  refine ⟨?_, ?_⟩
  · intro i _
    rw [List.nodup_flatMap]
    refine ⟨?_, ?_⟩
    · intro j _
      refine List.Nodup.map ?_ (List.nodup_range _)
      intro a b h
      simpa using congrArg (fun t => t.2.2) h
    · refine List.Pairwise.imp ?_ (List.nodup_range _)
      intro j1 j2 hne zs h1 h2
      obtain ⟨k1, -, rfl⟩ := List.mem_map.mp h1
      obtain ⟨k2, -, he⟩ := List.mem_map.mp h2
      have hj : j2 = j1 := by simpa using congrArg (fun t => t.2.1) he
      exact hne hj.symm
  · refine List.Pairwise.imp ?_ (List.nodup_range _)
    intro i1 i2 hne zs h1 h2
    obtain ⟨j1, -, h1⟩ := List.mem_flatMap.mp h1
    obtain ⟨k1, -, rfl⟩ := List.mem_map.mp h1
    obtain ⟨j2, -, h2⟩ := List.mem_flatMap.mp h2
    obtain ⟨k2, -, he⟩ := List.mem_map.mp h2
    have hi : i2 = i1 := by simpa using congrArg (fun t => t.1) he
    exact hne hi.symm

theorem uniqueLabels_nodup (x y z : Nat) (lab : LabGrid) :
    (uniqueLabels x y z lab).Nodup :=
  ((List.perm_insertionSort _ _).nodup_iff).mpr
    (List.nodup_dedup _)

theorem mem_uniqueLabels {x y z : Nat} {lab : LabGrid} {l : Nat} :
    l ∈ uniqueLabels x y z lab ↔ ∃ p ∈ croppedRavel x y z, lab p = l := by
  unfold uniqueLabels
  rw [(List.perm_insertionSort _ _).mem_iff, List.mem_dedup, List.mem_map]

/-- Fiberwise counting: summing the per-label counts over the distinct
labels satisfying `P` counts the cropped cells whose label satisfies `P`. -/
theorem sum_counts_filter (x y z : Nat) (lab : LabGrid) (P : Nat → Bool) :
    (((uniqueLabels x y z lab).filter P).map (countOf x y z lab)).sum
      = ((croppedRavel x y z).filter (fun p => P (lab p))).length := by
  classical
  have hLnd : (croppedRavel x y z).Nodup := scanList_nodup _
  have hund := uniqueLabels_nodup x y z lab
  have hufnd : ((uniqueLabels x y z lab).filter P).Nodup := hund.filter _
  rw [← List.sum_toFinset _ hufnd,
    ← List.toFinset_card_of_nodup (hLnd.filter _),
    @Finset.card_eq_sum_card_fiberwise Idx3 Nat _ lab
      ((croppedRavel x y z).filter (fun p => P (lab p))).toFinset
      ((uniqueLabels x y z lab).filter P).toFinset ?_]
  · apply Finset.sum_congr rfl
    intro b hb
    have hPb : P b = true :=
      (List.mem_filter.mp (List.mem_toFinset.mp hb)).2
    have hset : ((croppedRavel x y z).filter
        (fun p => P (lab p))).toFinset.filter (fun p => lab p = b) =
        ((croppedRavel x y z).filter (fun p => lab p = b)).toFinset := by
      ext w
      simp only [Finset.mem_filter, List.mem_toFinset, List.mem_filter]
      constructor
      · rintro ⟨⟨hw, -⟩, hb2⟩
        exact ⟨hw, by simp [hb2]⟩
      · rintro ⟨hw, hb2⟩
        have hb2' : lab w = b := by simpa using hb2
        exact ⟨⟨hw, by rw [hb2', hPb]⟩, hb2'⟩
    rw [hset]
    unfold countOf
    exact (List.toFinset_card_of_nodup (hLnd.filter _)).symm
  · intro p hp
    obtain ⟨hpL, hQ⟩ := List.mem_filter.mp (List.mem_toFinset.mp hp)
    exact List.mem_toFinset.mpr (List.mem_filter.mpr
      ⟨mem_uniqueLabels.mpr ⟨p, hpL, rfl⟩, hQ⟩)

/-- C4: conservation.  After a completed labeling pass over a padded
occupancy grid (resolver on or off — any spec-conforming outlier table), the
per-label counts of the cropped label grid satisfy: the counts of the labels
`> 0` sum to the number of occupied cropped cells, and the count of label `0`
is the number of unoccupied cropped cells. -/
theorem c4_conservation (occ : OccGrid) (x y z : Nat) (table : OutlierTable)
    (mc : Bool) (fuel : Nat) (hsub : mc = true → TableSub table) :
    ∀ res ∈ labelRun occ (x + 1, y + 1, z + 1) table mc fuel,
      (((uniqueLabels x y z res.1).filter (fun l => 0 < l)).map
          (countOf x y z res.1)).sum
        = ((croppedRavel x y z).filter (fun p => occ p)).length ∧
      countOf x y z res.1 0
        = ((croppedRavel x y z).filter (fun p => !occ p)).length := by
  intro res hres
  rw [Option.mem_def] at hres
  obtain ⟨i1, i2, i3⟩ := outerLoop_spec hsub _ _ _ _ _ hres
  have hpt : ∀ q ∈ croppedRavel x y z, (occ q = true ↔ res.1 q ≠ 0) := by
    intro q hq
    obtain ⟨hq1, hq2, hq3⟩ := mem_scanList.mp hq
    have hq1' : q.1 < x := hq1
    have hq2' : q.2.1 < y := hq2
    have hq3' : q.2.2 < z := hq3
    constructor
    · intro hocc
      exact i2 q (mem_scanList.mpr ⟨show q.1 < x + 1 by omega,
        show q.2.1 < y + 1 by omega, show q.2.2 < z + 1 by omega⟩) hocc
    · intro hne
      rcases i3 q hne with h0 | hocc
      · exact absurd rfl h0
      · exact hocc
  constructor
  · rw [sum_counts_filter x y z res.1 (fun l => 0 < l)]
    apply congrArg List.length
    apply List.filter_congr
    intro p hp
    cases hocc : occ p with
    | false =>
        have h0 : res.1 p = 0 := by
          by_contra hne
          rw [(hpt p hp).mpr hne] at hocc
          exact Bool.noConfusion hocc
        simp [h0]
    | true =>
        have hne := (hpt p hp).mp hocc
        simp [Nat.pos_of_ne_zero hne]
  · unfold countOf
    apply congrArg List.length
    apply List.filter_congr
    intro p hp
    cases hocc : occ p with
    | false =>
        have h0 : res.1 p = 0 := by
          by_contra hne
          rw [(hpt p hp).mpr hne] at hocc
          exact Bool.noConfusion hocc
        simp [h0]
    | true =>
        have hne := (hpt p hp).mp hocc
        simp [hne]

theorem occW1_padded : PaddedGrid occW1 1 1 2 := by
  intro p hp
  have hne : p ≠ (0, 0, 0) := by
    rintro rfl
    exact hp ⟨Nat.zero_lt_one, Nat.zero_lt_one, Nat.zero_lt_two⟩
  unfold occW1
  rw [decide_eq_false_iff_not]
  exact hne

theorem c4_conservation_witness :
    (labelRun occW1 (2, 2, 3) tblE false 20).isSome = true ∧
    ∀ res ∈ labelRun occW1 (2, 2, 3) tblE false 20,
      (((uniqueLabels 1 1 2 res.1).filter (fun l => 0 < l)).map
          (countOf 1 1 2 res.1)).sum
        = ((croppedRavel 1 1 2).filter (fun p => occW1 p)).length ∧
      countOf 1 1 2 res.1 0
        = ((croppedRavel 1 1 2).filter (fun p => !occW1 p)).length :=
  ⟨by decide, c4_conservation occW1 1 1 2 tblE false 20
    (fun h => Bool.noConfusion h)⟩

/-! ## C5: connectivity completeness with the resolver disabled -/

/-- One 26-connectivity step between cells. -/
def Step26 (p q : Idx3) : Prop :=
  ∃ d ∈ offsets, ofIdx q = add3 (ofIdx p) d

/-- A path of 26-connected occupied cells. -/
def Path26 (occ : OccGrid) (p q : Idx3) : Prop :=
  Relation.ReflTransGen
    (fun a b => Step26 a b ∧ occ a = true ∧ occ b = true) p q

/-- Labeled cells agree with every occupied cell their probes reach. -/
def LabConn (occ : OccGrid) (x y z : Nat) (lab : LabGrid) : Prop :=
  ∀ a, lab a ≠ 0 → ∀ d ∈ offsets, ∀ b,
    resolve3 (x + 1, y + 1, z + 1) (add3 (ofIdx a) d) = some b →
    occ b = true → lab b = lab a

theorem add3_ofIdx_ge {a : Idx3} {d : Pos3} (hd : d ∈ offsets) :
    -1 ≤ (add3 (ofIdx a) d).1 ∧ -1 ≤ (add3 (ofIdx a) d).2.1 ∧
      -1 ≤ (add3 (ofIdx a) d).2.2 := by
  obtain ⟨h1, h2, h3⟩ := offsets_bounded d hd
  unfold add3 ofIdx
  refine ⟨?_, ?_, ?_⟩ <;> dsimp only <;> omega

theorem resolve3_ofIdx_crop {x y z : Nat} {q : Idx3} (hq : InCrop x y z q) :
    resolve3 (x + 1, y + 1, z + 1) (ofIdx q) = some q :=
  resolve3_ofIdx (show q.1 < x + 1 by have := hq.1; omega)
    (show q.2.1 < y + 1 by have := hq.2.1; omega)
    (show q.2.2 < z + 1 by have := hq.2.2; omega)

theorem probe_reverse {x y z : Nat} {a b : Idx3} {d : Pos3}
    (heq : add3 (ofIdx a) d = ofIdx b) (ha : InCrop x y z a) :
    resolve3 (x + 1, y + 1, z + 1)
      (add3 (ofIdx b) (-d.1, -d.2.1, -d.2.2)) = some a := by
  have h1 := congrArg (fun t => t.1) heq
  have h2 := congrArg (fun t => t.2.1) heq
  have h3 := congrArg (fun t => t.2.2) heq
  simp only [add3, ofIdx] at h1 h2 h3
  have hba : add3 (ofIdx b) (-d.1, -d.2.1, -d.2.2) = ofIdx a := by
    unfold add3 ofIdx
    refine Prod.ext ?_ (Prod.ext ?_ ?_) <;> dsimp only <;> omega
  rw [hba]
  exact resolve3_ofIdx_crop ha

theorem probe_ne {a b : Idx3} {d : Pos3} (hd : d ∈ offsets)
    (heq : add3 (ofIdx a) d = ofIdx b) : a ≠ b := by
  rintro rfl
  have h1 := congrArg (fun t => t.1) heq
  have h2 := congrArg (fun t => t.2.1) heq
  have h3 := congrArg (fun t => t.2.2) heq
  simp only [add3, ofIdx] at h1 h2 h3
  have hd0 : d = ((0 : Int), (0 : Int), (0 : Int)) := by
    obtain ⟨d1, d2, d3⟩ := d
    simp only at h1 h2 h3
    refine Prod.ext ?_ (Prod.ext ?_ ?_) <;> dsimp only <;> omega
  rw [hd0] at hd
  exact zero_not_mem_offsets hd

/-- The flood fill (resolver disabled) preserves label-connectedness: at the
end of every outer iteration, a labeled cell agrees with every occupied cell
it can probe. -/
theorem outerLoop_conn {occ : OccGrid} {table : OutlierTable} {fuel : Nat}
    {x y z : Nat} (hpad : PaddedGrid occ x y z) :
    ∀ (ps : List Idx3) (lab : LabGrid) (v : Nat) (seeds : List Idx3)
      (res : LabGrid × Nat × List Idx3),
      (∀ w, lab w ≠ 0 → occ w = true) →
      LabConn occ x y z lab →
      outerLoop occ (x + 1, y + 1, z + 1) table false fuel ps (lab, v, seeds)
        = some res →
      LabConn occ x y z res.1 := by
  intro ps
  induction ps with
  | nil =>
      intro lab v seeds res hlocc hconn h
      cases h
      exact hconn
  | cons p ps ih =>
      intro lab v seeds res hlocc hconn h
      unfold outerLoop at h
      by_cases hseed : occ p = true ∧ lab p = 0
      · rw [if_pos hseed] at h
        rcases hexp : expandFrom occ (x + 1, y + 1, z + 1) table false (v + 1)
            fuel (Function.update lab p (v + 1))
            [((p.1 : Int), (p.2.1 : Int), (p.2.2 : Int))] with _ | lab2 <;>
          rw [hexp] at h
        · cases h
        · set lab1 := Function.update lab p (v + 1) with hlab1
          obtain ⟨e1, e2, e3, e4⟩ := expandFrom_spec hpad (Nat.succ_ne_zero v)
            fuel lab1 _ lab2 (by
              intro zq hzq
              rw [List.mem_singleton] at hzq
              exact ⟨p, hzq⟩) hexp
          have hlp1 : lab1 p = v + 1 := Function.update_same _ _ _
          have hlocc2 : ∀ w, lab2 w ≠ 0 → occ w = true := by
            intro w hw
            rcases e2 w hw with hw1 | hw1
            · rcases eq_or_ne w p with rfl | hne
              · exact hseed.1
              · rw [hlab1, Function.update_noteq hne] at hw1
                exact hlocc w hw1
            · exact hw1.2
          have hconn2 : LabConn occ x y z lab2 := by
            intro a ha d hd b hres hoccb
            have hbcrop := InCrop_of_occ hpad hoccb
            have hab : add3 (ofIdx a) d = ofIdx b :=
              resolve3_nowrap hres (add3_ofIdx_ge hd) hbcrop
            have hanotb : a ≠ b := probe_ne hd hab
            have hocca : occ a = true := hlocc2 a ha
            have hacrop := InCrop_of_occ hpad hocca
            have hrev := probe_reverse hab hacrop
            have hdneg : ((-d.1, -d.2.1, -d.2.2) : Pos3) ∈ offsets :=
              offsets_neg d hd
            by_cases h1a : lab1 a = 0
            · -- `a` was labeled during this expansion
              have hap : a ≠ p := by
                rintro rfl
                rw [hlp1] at h1a
                exact Nat.succ_ne_zero v h1a
              have hla0 : lab a = 0 := by
                rw [hlab1, Function.update_noteq hap] at h1a
                exact h1a
              have hexp_a := (e4 a ha).resolve_left (by rw [h1a]; exact not_not_intro rfl)
              have hlab2b : lab2 b ≠ 0 := hexp_a d hd b hres hoccb
              have hlab2a : lab2 a = v + 1 :=
                ((e2 a ha).resolve_left (by rw [h1a]; exact not_not_intro rfl)).1
              by_cases hlb : lab b = 0
              · rcases eq_or_ne b p with rfl | hbp
                · rw [e1 b (by rw [hlp1]; exact Nat.succ_ne_zero v), hlp1, hlab2a]
                · have hlab1b : lab1 b = 0 := by
                    rw [hlab1, Function.update_noteq hbp]
                    exact hlb
                  rw [((e2 b hlab2b).resolve_left
                    (by rw [hlab1b]; exact not_not_intro rfl)).1, hlab2a]
              · have hback := hconn b hlb _ hdneg a hrev hocca
                rw [hla0] at hback
                exact absurd hback.symm hlb
            · -- `a` carried a label before this expansion
              rcases eq_or_ne a p with rfl | hap
              · have hlab2b : lab2 b ≠ 0 :=
                  e3 _ (List.mem_singleton.mpr rfl) d hd b hres hoccb
                by_cases hlb : lab b = 0
                · have hlab1b : lab1 b = 0 := by
                    rw [hlab1, Function.update_noteq (fun he => hanotb he.symm)]
                    exact hlb
                  rw [((e2 b hlab2b).resolve_left
                    (by rw [hlab1b]; exact not_not_intro rfl)).1,
                    e1 a (by rw [hlp1]; exact Nat.succ_ne_zero v), hlp1]
                · have hback := hconn b hlb _ hdneg a hrev hocca
                  rw [hseed.2] at hback
                  exact absurd hback.symm hlb
              · have hla : lab a ≠ 0 := by
                  rw [hlab1, Function.update_noteq hap] at h1a
                  exact h1a
                have hlab_ba := hconn a hla d hd b hres hoccb
                have hlb : lab b ≠ 0 := by
                  rw [hlab_ba]
                  exact hla
                have hbp : b ≠ p := by
                  rintro rfl
                  exact hlb hseed.2
                have hlab1b : lab1 b = lab b := by
                  rw [hlab1]
                  exact Function.update_noteq hbp _ _
                have hlab1a : lab1 a = lab a := by
                  rw [hlab1]
                  exact Function.update_noteq hap _ _
                rw [e1 b (by rw [hlab1b]; exact hlb),
                  e1 a (by rw [hlab1a]; exact hla), hlab1b, hlab1a, hlab_ba]
          exact ih _ _ _ _ hlocc2 hconn2 h
      · rw [if_neg hseed] at h
        exact ih _ _ _ _ hlocc hconn h

/-- C5: with the resolver disabled, any two occupied cells joined by a path
of 26-connected occupied cells receive the same positive label after a
completed labeling pass on a padded grid. -/
theorem c5_connectivity (occ : OccGrid) (x y z : Nat) (table : OutlierTable)
    (fuel : Nat) (hpad : PaddedGrid occ x y z) :
    ∀ res ∈ labelRun occ (x + 1, y + 1, z + 1) table false fuel,
      ∀ p q : Idx3, occ p = true → occ q = true → Path26 occ p q →
        res.1 q = res.1 p ∧ res.1 p ≠ 0 := by
  intro res hres p q hp hq hpath
  rw [Option.mem_def] at hres
  have hconn : LabConn occ x y z res.1 :=
    outerLoop_conn hpad _ _ _ _ _ (fun w hw => absurd rfl hw)
      (fun a ha => absurd rfl ha) hres
  obtain ⟨-, i2, -⟩ := @outerLoop_spec occ (x + 1, y + 1, z + 1) table false
    fuel (fun hff => Bool.noConfusion hff) _ _ _ _ _ hres
  have hcov : ∀ w, occ w = true → res.1 w ≠ 0 := by
    intro w hw
    obtain ⟨hw1, hw2, hw3⟩ := InCrop_of_occ hpad hw
    exact i2 w (mem_scanList.mpr ⟨show w.1 < x + 1 by omega,
      show w.2.1 < y + 1 by omega, show w.2.2 < z + 1 by omega⟩) hw
  have hnz : res.1 p ≠ 0 := hcov p hp
  refine ⟨?_, hnz⟩
  clear hq
  induction hpath with
  | refl => rfl
  | @tail b c hpb hstep ih =>
      obtain ⟨⟨d, hd, heq⟩, hob, hoc⟩ := hstep
      have hlb : res.1 b ≠ 0 := by rw [ih]; exact hnz
      have hres_c : resolve3 (x + 1, y + 1, z + 1) (add3 (ofIdx b) d) = some c := by
        rw [← heq]
        exact resolve3_ofIdx_crop (InCrop_of_occ hpad hoc)
      rw [hconn b hlb d hd c hres_c hoc, ih]

/-- Scenario C grid: cells `(0,0,0)` and `(1,1,1)` of a 2×2×2 region. -/
def occD : OccGrid := fun p => decide (p = (0, 0, 0)) || decide (p = (1, 1, 1))

theorem occD_padded : PaddedGrid occD 2 2 2 := by
  intro p hp
  have h1 : p ≠ (0, 0, 0) := by
    rintro rfl
    exact hp ⟨by decide, by decide, by decide⟩
  have h2 : p ≠ (1, 1, 1) := by
    rintro rfl
    exact hp ⟨by decide, by decide, by decide⟩
  show (decide (p = (0, 0, 0)) || decide (p = (1, 1, 1))) = false
  rw [decide_eq_false h1, decide_eq_false h2]
  rfl

theorem c5_connectivity_witness :
    (labelRun occD (3, 3, 3) tblE false 60).isSome = true ∧
    ∀ res ∈ labelRun occD (3, 3, 3) tblE false 60,
      res.1 (1, 1, 1) = res.1 (0, 0, 0) ∧ res.1 (0, 0, 0) ≠ 0 :=
  ⟨by decide, fun res hres =>
    c5_connectivity occD 2 2 2 tblE 60 occD_padded res hres
      (0, 0, 0) (1, 1, 1) (by decide) (by decide)
      (Relation.ReflTransGen.single
        ⟨⟨(1, 1, 1), by decide, by decide⟩, by decide, by decide⟩)⟩

/-! ## C3: the resolver resets only diagonally-linked cells -/

theorem anchorIdx_lt {ii : Nat} (hii : ii < 8) : anchorIdx ii < 8 := by
  interval_cases ii <;> decide

/-- The anchor corner's bit of every octant case code is set. -/
theorem testBit_anchor (fl : FlagSet) {ii : Nat} (hii : ii < 8) :
    Nat.testBit (find_case_number (cubeList fl ii)) (anchorIdx ii) = true := by
  rw [testBit_cubeList fl ii hii _ (anchorIdx_lt hii)]
  exact cube_entry_anchor fl ii hii

theorem faceOffsets_sub : ∀ d ∈ faceOffsets, d ∈ offsets := by decide

theorem add3_left_cancel {pz d1 d2 : Pos3} (h : add3 pz d1 = add3 pz d2) :
    d1 = d2 := by
  have h1 := congrArg (fun t => t.1) h
  have h2 := congrArg (fun t => t.2.1) h
  have h3 := congrArg (fun t => t.2.2) h
  simp only [add3] at h1 h2 h3
  refine Prod.ext ?_ (Prod.ext ?_ ?_) <;> omega

/-- A removal branch that resets a face offset belongs to a corner that is
`ConnB`-connected (in one step) to the octant's anchor inside the case code. -/
theorem face_corner_conn {table : OutlierTable} (hsub : TableSub table)
    {fl : FlagSet} {ii w : Nat} {S : List Nat} (hii : ii < 8)
    (hS : S ∈ table (find_case_number (cubeList fl ii))) (hw : w ∈ S)
    {d : Pos3} (hrem : removeCell ii w = some d) (hface : d ∈ faceOffsets) :
    ConnB (Nat.testBit (find_case_number (cubeList fl ii))) w (anchorIdx ii) := by
  have hlt := removeCell_lt ii w d hrem
  have hadj : adjG w (anchorIdx ii) = true :=
    removeCell_face_adj ⟨ii, hlt.1⟩ ⟨w, hlt.2⟩ d hrem hface
  exact Relation.ReflTransGen.single
    ⟨hadj, hsub _ S w hS hw, testBit_anchor fl hii⟩

/-- C3: frame effect of the ambiguity resolver.  For a spec-conforming
outlier table (subsets of set corners, closed under cube-edge adjacency
within the code), run at the expanded cell `p` on frozen flags `fl`:
(a) the full resolver pass never clears the `_auxCube` entry of any of the
six unambiguous face offsets, nor the label of the in-crop cell such an
offset reaches — cells linked through a face offset survive; and
(b) when one octant `ii` fires, any corner `w` that is joined to the
octant's anchor by a chain of cube-edge-adjacent set corners of the case
code (unambiguous face/edge connectivity inside the octant) keeps both its
pending `_auxCube` entry and the label of its in-crop target cell: only
cells connected purely via the ambiguous diagonal are reset. -/
theorem c3_resolver_frame (x y z : Nat) (p : Idx3) (table : OutlierTable)
    (fl : FlagSet) (st : LabGrid × FlagSet)
    (hsub : TableSub table) (hcl : TableClosed table) :
    (∀ d ∈ faceOffsets,
      (mcResolve table fl (x + 1, y + 1, z + 1) (ofIdx p) st).2 d = st.2 d ∧
      ∀ q, InCrop x y z q →
        resolve3 (x + 1, y + 1, z + 1) (add3 (ofIdx p) d) = some q →
        (mcResolve table fl (x + 1, y + 1, z + 1) (ofIdx p) st).1 q = st.1 q) ∧
    (∀ ii, ii < 8 → ∀ w d, removeCell ii w = some d →
      ConnB (Nat.testBit (find_case_number (cubeList fl ii))) w (anchorIdx ii) →
      (applyOctant table fl (x + 1, y + 1, z + 1) (ofIdx p) st ii).2 d
          = st.2 d ∧
      ∀ q, InCrop x y z q →
        resolve3 (x + 1, y + 1, z + 1) (add3 (ofIdx p) d) = some q →
        (applyOctant table fl (x + 1, y + 1, z + 1) (ofIdx p) st ii).1 q
          = st.1 q) := by
  constructor
  · intro d hface
    constructor
    · by_contra hne
      obtain ⟨-, ii, hii, S, hS, hanc, w2, hw2, hrem2⟩ :=
        mcResolve_flag_change st d hne
      exact hanc (mem_of_connB hcl hS
        (face_corner_conn hsub hii hS hw2 hrem2 hface) hw2)
    · intro q hq hres
      by_contra hne
      obtain ⟨-, ii, hii, S, hS, hanc, w2, hw2, d2, hrem2, hres2⟩ :=
        mcResolve_lab_change st q hne
      have hd2off : d2 ∈ offsets :=
        removeCell_mem_offsets ⟨ii, hii⟩ ⟨w2, (removeCell_lt _ _ _ hrem2).2⟩
          d2 hrem2
      have he1 : add3 (ofIdx p) d2 = ofIdx q :=
        resolve3_nowrap hres2 (add3_ofIdx_ge hd2off) hq
      have he2 : add3 (ofIdx p) d = ofIdx q :=
        resolve3_nowrap hres (add3_ofIdx_ge (faceOffsets_sub d hface)) hq
      have hdd : d2 = d := add3_left_cancel (he1.trans he2.symm)
      subst hdd
      exact hanc (mem_of_connB hcl hS
        (face_corner_conn hsub hii hS hw2 hrem2 hface) hw2)
  · intro ii hii w d hrem hconn
    constructor
    · by_contra hne
      obtain ⟨-, S, hS, hanc, w2, hw2, hrem2⟩ :=
        applyOctant_flag_change st d hne
      have hww : (⟨w2, (removeCell_lt _ _ _ hrem2).2⟩ : Fin 8)
          = ⟨w, (removeCell_lt _ _ _ hrem).2⟩ :=
        removeCell_inj ⟨ii, hii⟩ _ _ d hrem2 hrem
      have hw2w : w2 = w := congrArg Fin.val hww
      rw [hw2w] at hw2
      exact hanc (mem_of_connB hcl hS hconn hw2)
    · intro q hq hres
      by_contra hne
      obtain ⟨-, S, hS, hanc, w2, hw2, d2, hrem2, hres2⟩ :=
        applyOctant_lab_change st q hne
      have hd2off : d2 ∈ offsets :=
        removeCell_mem_offsets ⟨ii, hii⟩ ⟨w2, (removeCell_lt _ _ _ hrem2).2⟩
          d2 hrem2
      have hdoff : d ∈ offsets :=
        removeCell_mem_offsets ⟨ii, hii⟩ ⟨w, (removeCell_lt _ _ _ hrem).2⟩
          d hrem
      have he1 : add3 (ofIdx p) d2 = ofIdx q :=
        resolve3_nowrap hres2 (add3_ofIdx_ge hd2off) hq
      have he2 : add3 (ofIdx p) d = ofIdx q :=
        resolve3_nowrap hres (add3_ofIdx_ge hdoff) hq
      have hdd : d2 = d := add3_left_cancel (he1.trans he2.symm)
      subst hdd
      have hww : (⟨w2, (removeCell_lt _ _ _ hrem2).2⟩ : Fin 8)
          = ⟨w, (removeCell_lt _ _ _ hrem).2⟩ :=
        removeCell_inj ⟨ii, hii⟩ _ _ d2 hrem2 hrem
      have hw2w : w2 = w := congrArg Fin.val hww
      rw [hw2w] at hw2
      exact hanc (mem_of_connB hcl hS hconn hw2)

/-- Witness outlier table: case code 52 (corners 2, 4, 5 set) has the single
ambiguous subset `{2}` — corner 2 is the lone diagonal corner, corners 4
(anchor) and 5 form the unambiguous component. -/
def tableW : OutlierTable := fun code => if code = 52 then [[2]] else []

theorem tableW_sub : TableSub tableW := by
  intro code S w hS hw
  unfold tableW at hS
  by_cases hc : code = 52
  · subst hc
    rw [if_pos rfl, List.mem_singleton] at hS
    subst hS
    rw [List.mem_singleton] at hw
    subst hw
    decide
  · rw [if_neg hc] at hS
    exact absurd hS (List.not_mem_nil S)

theorem tableW_closed : TableClosed tableW := by
  intro code S hS w hw u hadj hbit
  unfold tableW at hS
  by_cases hc : code = 52
  · subst hc
    rw [if_pos rfl, List.mem_singleton] at hS
    subst hS
    rw [List.mem_singleton] at hw
    subst hw
    have hu : u = 1 ∨ u = 3 ∨ u = 6 := by
      by_contra hcon
      push_neg at hcon
      obtain ⟨hu1, hu3, hu6⟩ := hcon
      unfold adjG cubeAdjPairs at hadj
      rcases Bool.or_eq_true_iff.mp hadj with hmem | hmem <;>
        rw [decide_eq_true_iff] at hmem <;>
        · simp only [List.mem_cons, Prod.mk.injEq, List.not_mem_nil,
            or_false] at hmem
          omega
    rcases hu with rfl | rfl | rfl <;> exact absurd hbit (by decide)
  · rw [if_neg hc] at hS
    exact absurd hS (List.not_mem_nil S)

/-- Witness flags: the diagonal `(1,-1,-1)` (octant 0 corner 2) and the face
offset `(1,0,0)` (octant 0 corner 5) were linked this step. -/
def flW : FlagSet := fun d =>
  decide (d = (1, -1, -1)) || decide (d = (1, 0, 0))

def labW : LabGrid := fun q =>
  if q = (1, 0, 0) then 7 else if q = (1, 1, 1) then 9 else 0

theorem c3_resolver_frame_witness :
    flW (1, -1, -1) = true ∧ labW (1, 0, 0) = 7 ∧
    (mcResolve tableW flW (3, 3, 3) ((0 : Int), (1 : Int), (1 : Int))
      (labW, flW)).2 (1, -1, -1) = false ∧
    (mcResolve tableW flW (3, 3, 3) ((0 : Int), (1 : Int), (1 : Int))
      (labW, flW)).1 (1, 0, 0) = 0 ∧
    (mcResolve tableW flW (3, 3, 3) ((0 : Int), (1 : Int), (1 : Int))
      (labW, flW)).2 (1, 0, 0) = flW (1, 0, 0) ∧
    (mcResolve tableW flW (3, 3, 3) ((0 : Int), (1 : Int), (1 : Int))
      (labW, flW)).1 (1, 1, 1) = labW (1, 1, 1) :=
  ⟨by decide, by decide, by decide, by decide,
   ((c3_resolver_frame 2 2 2 (0, 1, 1) tableW flW (labW, flW) tableW_sub
       tableW_closed).1 (1, 0, 0) (by decide)).1,
   ((c3_resolver_frame 2 2 2 (0, 1, 1) tableW flW (labW, flW) tableW_sub
       tableW_closed).1 (1, 0, 0) (by decide)).2 (1, 1, 1) (by decide)
     (by decide)⟩

/-! ## C1: the reported volume statistics -/

/-- C1 counterexample grid: a 1×1×3 region with cells `(0,0,0)` and
`(0,0,1)` occupied and `(0,0,2)` empty. -/
def occC1 : OccGrid := fun p => decide (p = (0, 0, 0)) || decide (p = (0, 0, 1))

/-- C1 (counterexample): on `occC1` the single structure has 2 cells, so the
largest count among labels > 0 and their sum are both 2 — but the code
reports `(1, 1)`: `countsall[::-1][1]` is the second largest count over ALL
labels including the background 0, and here the background count 1 is
smaller than the structure count 2, so `Vmax` picks the background.  An
all-empty occupancy grid yields no record at all: with a single distinct
label, `countsall[::-1][1]` raises `IndexError` instead of producing
`(threshold, 0, 0)`. -/
theorem c1_counterexample :
    runStats occC1 1 1 3 tblE false 50 = some (1, 1) ∧
    (labelRun occC1 (2, 2, 4) tblE false 50).map
      (fun r => (specMaxVolume 1 1 3 r.1, specTotalVolume 1 1 3 r.1))
      = some (2, 2) ∧
    runStats (fun _ => false) 1 1 1 tblE false 20 = none := by
  decide

theorem foldr_max_le {m : Nat} : ∀ L : List Nat, (∀ x ∈ L, x ≤ m) →
    L.foldr max 0 ≤ m := by
  intro L
  induction L with
  | nil => intro _; exact Nat.zero_le m
  | cons a L ih =>
      intro h
      rw [List.foldr_cons]
      exact max_le (h a (List.mem_cons_self a L))
        (ih fun w hw => h w (List.mem_cons_of_mem _ hw))

theorem statsOf_eq_of_reverse {x y z : Nat} {lab : LabGrid} {a b : Nat}
    {rest : List Nat}
    (h : ((((uniqueLabels x y z lab).map (countOf x y z lab)).insertionSort
        (· ≤ ·)).reverse) = a :: b :: rest) :
    statsOf x y z lab = some (b, b + rest.sum) := by
  unfold statsOf
  rw [h]

/-- C1 (amended): the code's `Vmax = countsall[::-1][1]` and
`Vall = sum(countsall[::-1][1:])` equal the spec's "largest count among
labels > 0" and "sum of counts over labels > 0" exactly when the background
label 0 occurs in the cropped grid and its count is (one of) the largest —
the sorted-descending list then starts with the background count and its
tail is a permutation of the positive-label counts.  An all-empty occupancy
grid never yields a `(threshold, 0, 0)` record: the statistics block raises
`IndexError` (result `none`). -/
theorem c1_stats_amended (x y z : Nat) :
    (∀ lab : LabGrid,
      0 ∈ uniqueLabels x y z lab →
      (∀ l ∈ uniqueLabels x y z lab,
        countOf x y z lab l ≤ countOf x y z lab 0) →
      (∃ l ∈ uniqueLabels x y z lab, 0 < l) →
      statsOf x y z lab
        = some (specMaxVolume x y z lab, specTotalVolume x y z lab)) ∧
    (∀ (occ : OccGrid) (table : OutlierTable) (mc : Bool) (fuel : Nat),
      (∀ p, occ p = false) → runStats occ x y z table mc fuel = none) := by
  constructor
  · intro lab h0 hmax hpos
    have hund : (uniqueLabels x y z lab).Nodup := uniqueLabels_nodup x y z lab
    have herase : (uniqueLabels x y z lab).erase 0
        = (uniqueLabels x y z lab).filter (0 < ·) := by
      rw [List.Nodup.erase_eq_filter hund 0]
      apply List.filter_congr
      intro w _
      rcases w with _ | n
      · rfl
      · rw [decide_eq_true (Nat.succ_pos n)]
        rfl
    have h1 : List.Perm ((uniqueLabels x y z lab).map (countOf x y z lab))
        (countOf x y z lab 0 ::
          ((uniqueLabels x y z lab).filter (0 < ·)).map (countOf x y z lab)) := by
      have h2 := (List.perm_cons_erase h0).map (countOf x y z lab)
      rw [List.map_cons, herase] at h2
      exact h2
    obtain ⟨l0, hl0u, hl0pos⟩ := hpos
    have hl0f : l0 ∈ (uniqueLabels x y z lab).filter (0 < ·) :=
      List.mem_filter.mpr ⟨hl0u, decide_eq_true hl0pos⟩
    have hposne :=
      List.ne_nil_of_mem (List.mem_map_of_mem (countOf x y z lab) hl0f)
    have hlen2 : 2 ≤ ((((uniqueLabels x y z lab).map
        (countOf x y z lab)).insertionSort (· ≤ ·)).reverse).length := by
      rw [List.length_reverse, (List.perm_insertionSort _ _).length_eq,
        h1.length_eq, List.length_cons]
      have hp1 := List.length_pos.mpr hposne
      omega
    have hsorted : List.Pairwise (· ≤ ·)
        (((uniqueLabels x y z lab).map (countOf x y z lab)).insertionSort
          (· ≤ ·)) := List.sorted_insertionSort _ _
    have hrevsort : List.Pairwise (fun u1 u2 => u2 ≤ u1)
        ((((uniqueLabels x y z lab).map (countOf x y z lab)).insertionSort
          (· ≤ ·)).reverse) := List.pairwise_reverse.mpr hsorted
    rcases hr : ((((uniqueLabels x y z lab).map
        (countOf x y z lab)).insertionSort (· ≤ ·)).reverse) with
      _ | ⟨a, _ | ⟨b, rest⟩⟩
    · rw [hr, List.length_nil] at hlen2
      omega
    · rw [hr, List.length_cons, List.length_nil] at hlen2
      omega
    · rw [hr] at hrevsort
      -- the head of the descending list is the background count
      have hacnts : a ∈ (uniqueLabels x y z lab).map (countOf x y z lab) := by
        have ha2 : a ∈ ((((uniqueLabels x y z lab).map
            (countOf x y z lab)).insertionSort (· ≤ ·)).reverse) := by
          rw [hr]
          exact List.mem_cons_self _ _
        rw [List.mem_reverse] at ha2
        exact ((List.perm_insertionSort _ _).mem_iff).mp ha2
      obtain ⟨la, hla, hlaeq⟩ := List.mem_map.mp hacnts
      have hc0 : countOf x y z lab 0 ∈ ((((uniqueLabels x y z lab).map
          (countOf x y z lab)).insertionSort (· ≤ ·)).reverse) := by
        rw [List.mem_reverse]
        exact ((List.perm_insertionSort _ _).mem_iff).mpr
          (List.mem_map_of_mem _ h0)
      have hge : countOf x y z lab 0 ≤ a := by
        rw [hr] at hc0
        rcases List.mem_cons.mp hc0 with heq | hmem
        · exact le_of_eq heq
        · exact List.rel_of_sorted_cons hrevsort _ hmem
      have hacnt : a = countOf x y z lab 0 :=
        le_antisymm (by rw [← hlaeq]; exact hmax la hla) hge
      -- the tail is a permutation of the positive-label counts
      have hms : ((a :: b :: rest : List ℕ) : Multiset ℕ)
          = ((countOf x y z lab 0 :: ((uniqueLabels x y z lab).filter
              (0 < ·)).map (countOf x y z lab) : List ℕ) : Multiset ℕ) := by
        rw [← hr]
        exact Multiset.coe_eq_coe.mpr
          ((List.reverse_perm _).trans ((List.perm_insertionSort _ _).trans h1))
      rw [← Multiset.cons_coe, ← Multiset.cons_coe, hacnt] at hms
      have hperm2 : List.Perm (b :: rest)
          (((uniqueLabels x y z lab).filter (0 < ·)).map (countOf x y z lab)) :=
        Multiset.coe_eq_coe.mp ((Multiset.cons_inj_right _).mp hms)
      -- the second entry is the largest positive-label count
      have htail : List.Pairwise (fun u1 u2 => u2 ≤ u1) (b :: rest) :=
        hrevsort.of_cons
      have hble : rest.foldr max 0 ≤ b :=
        foldr_max_le rest (List.rel_of_sorted_cons htail)
      have hfold : List.foldr max 0 (b :: rest) = List.foldr max 0
          (((uniqueLabels x y z lab).filter (0 < ·)).map
            (countOf x y z lab)) := hperm2.foldr_eq 0
      have hbmax : b = specMaxVolume x y z lab := by
        unfold specMaxVolume
        rw [← hfold, List.foldr_cons]
        exact (max_eq_left hble).symm
      have hbsum : b + rest.sum = specTotalVolume x y z lab := by
        unfold specTotalVolume
        rw [← hperm2.sum_eq, List.sum_cons]
      rw [statsOf_eq_of_reverse hr]
      exact congrArg some (Prod.ext hbmax hbsum)
  · intro occ table mc fuel hocc
    unfold runStats
    rw [labelRun_allFalse occ _ table mc fuel hocc]
    exact statsOf_zero x y z

/-- Witness label grid for the amended statistics statement: one labeled
cell and one background cell of a 1×1×2 region. -/
def labC1w : LabGrid := fun p => if p = (0, 0, 0) then 1 else 0

theorem c1_stats_amended_witness :
    statsOf 1 1 2 labC1w = some (1, 1) ∧
    statsOf 1 1 2 labC1w
      = some (specMaxVolume 1 1 2 labC1w, specTotalVolume 1 1 2 labC1w) ∧
    runStats (fun _ => false) 1 1 2 tblE false 20 = none :=
  ⟨by decide,
   (c1_stats_amended 1 1 2).1 labC1w (by decide) (by decide)
     ⟨1, by decide, by decide⟩,
   (c1_stats_amended 1 1 2).2 (fun _ => false) tblE false 20 (fun p => rfl)⟩

end GeomChar
